import Mathlib

/-!
# hotcontext resolver (`scripts/resolve.js`)

A shallow embedding of the tag resolution and bundle composition pipeline:
`parseTags`, `getSearchDirs`, `resolveTag`, `stripFrontmatter`, `loadBundle`,
`formatOutput` and the per-tag loop of `main`.

JavaScript strings are modelled as lists of characters.  The two regular
expressions of the source are written with a handful of backtracking
combinators in continuation-passing style, one combinator per regex
construct, so that priorities (greedy, lazy, optional) are those of the
JavaScript matcher.  The filesystem and the `path`/`os`/`process` modules are
parameters; the calls `process.cwd()` and `os.homedir()` may throw.
-/

namespace HotContext

/-! ## Strings and regex combinators -/

/-- A JavaScript string. -/
abbrev Str := List Char

/-- A matcher continuation: it receives the input that is still unread and
gives the result of the whole match attempt. -/
abbrev Cont (α : Type) := Str → Option α

/-- A literal character `c` of a pattern, followed by the rest `k` of the pattern. -/
def lit {α : Type} (c : Char) (k : Cont α) : Cont α
  | [] => none
  | d :: t => if d = c then k t else none

/-- The greedy optional character `c?`: first try with `c` consumed, then without. -/
def optG {α : Type} (c : Char) (k : Cont α) : Cont α :=
  fun s => (lit c k s).orElse fun _ => k s

/-- The greedy starred class `[p]*`, capturing what it consumed after `acc`:
takes one more character when it can, and gives it back if the rest fails. -/
def starG {α : Type} (p : Char → Bool) (k : Str → Cont α) : Str → Cont α
  | acc, [] => k acc []
  | acc, c :: t =>
    if p c then (starG p k (acc ++ [c]) t).orElse fun _ => k acc (c :: t)
    else k acc (c :: t)

/-- The greedy class `[p]+`, capturing what it consumed. -/
def plusG {α : Type} (p : Char → Bool) (k : Str → Cont α) : Cont α
  | [] => none
  | c :: t => if p c then starG p k [c] t else none

/-- The lazy `[\s\S]*?`, capturing what it consumed after `acc`: first try the
rest of the pattern here, and only if that fails consume one more character. -/
def anyStarL {α : Type} (k : Str → Cont α) : Str → Cont α
  | acc, [] => k acc []
  | acc, c :: t => (k acc (c :: t)).orElse fun _ => anyStarL k (acc ++ [c]) t

/-- The greedy `[\s\S]*`, capturing what it consumed after `acc`. -/
def anyStarG {α : Type} (k : Str → Cont α) : Str → Cont α
  | acc, [] => k acc []
  | acc, c :: t => (anyStarG k (acc ++ [c]) t).orElse fun _ => k acc (c :: t)

/-- The anchor `$` (no `m` flag): succeeds with `r` only at the end of the input. -/
def eoi {α : Type} (r : α) : Cont α
  | [] => some r
  | _ :: _ => none

/-- One `RegExp.prototype.exec` step of a global regex: `s` is the input from
`lastIndex = i` on; the pattern is tried at each start index from left to
right, and the first index where it matches is returned with its result. -/
def execFrom {α : Type} (re : Cont α) : Nat → Str → Option (Nat × α)
  | i, [] => (re []).map fun r => (i, r)
  | i, c :: t =>
    match re (c :: t) with
    | some r => some (i, r)
    | none => execFrom re (i + 1) t

/-- The loop of `String.prototype.match` with a `g` regex whose matches are never
empty: `re` gives the matched text and the input after it; every match is
recorded with its start index and the search resumes at the end of the match. -/
def matchAllAux (re : Cont (Str × Str)) : Nat → Nat → Str → List (Nat × Str)
  | 0, _, _ => []
  | fuel + 1, i, s =>
    match execFrom re i s with
    | none => []
    | some (j, m, rest) => (j, m) :: matchAllAux re fuel (j + m.length) rest

/-- All matches of a global regex in `s`, left to right, with their start indices. -/
def matchAll (re : Cont (Str × Str)) (s : Str) : List (Nat × Str) :=
  matchAllAux re (s.length + 1) 0 s

/-- The value of `s.match(re)` for a global regex: `null` when there is no match,
otherwise the array of matched texts. -/
def strMatchG (re : Cont (Str × Str)) (s : Str) : Option (List Str) :=
  match matchAll re s with
  | [] => none
  | ms => some (ms.map Prod.snd)

/-! ## Tag parsing -/

/-- The character class `[a-zA-Z0-9_-]`. -/
def isTagChar (c : Char) : Bool :=
  ('a' ≤ c && c ≤ 'z') || ('A' ≤ c && c ≤ 'Z') || ('0' ≤ c && c ≤ '9') || c == '_' || c == '-'

/-- The pattern `\+([a-zA-Z0-9_-]+)`; the result is the matched text and the
input after it. -/
def tagRe : Cont (Str × Str) :=
  lit '+' (plusG isTagChar fun g rest => some ('+' :: g, rest))

/-- One iteration of the deduplication loop of `parseTags` on the state
`(seen, tags)`. -/
def parseTagsStep (st : List Str × List Str) (m : Str) : List Str × List Str :=
  let tag := m.drop 1
  if tag ∈ st.1 then st else (tag :: st.1, st.2 ++ [tag])

/-- The function `parseTags(prompt)`. -/
def parseTags (prompt : Str) : List Str :=
  match strMatchG tagRe prompt with
  | none => []
  | some ms => (ms.foldl parseTagsStep ([], [])).2

/-! ## Directory resolution -/

/-- The calls the resolver makes to the `process`, `os` and `path` modules:
`process.cwd()` and `os.homedir()` either return a path or throw, with the
message of the error; `path.join` is a function. -/
structure Host where
  cwd : Except Str Str
  homedir : Except Str Str
  join : List Str → Str

/-- The values that `process.cwd()` and `os.homedir()` return in a run where both
return, and `path.join`. -/
structure Env where
  cwd : Str
  homedir : Str
  join : List Str → Str

/-- The host on which `process.cwd()` and `os.homedir()` return the values of `env`. -/
def hostOf (env : Env) : Host :=
  { cwd := .ok env.cwd, homedir := .ok env.homedir, join := env.join }

/-- The filesystem calls the resolver makes.  Each may throw; an error carries
its message. -/
structure FS where
  existsSync : Str → Except Str Bool
  readFileSync : Str → Except Str Str

/-- An entry `{ scope, dir }` of the search list. -/
structure SearchDir where
  scope : Str
  dir : Str
deriving DecidableEq, Repr

/-- The result `{ scope, filePath }` of `resolveTag`. -/
structure Resolution where
  scope : Str
  filePath : Str
deriving DecidableEq, Repr

/-- The function `getSearchDirs()`: it calls `process.cwd()` and then
`os.homedir()`; an error thrown by either call propagates to the caller. -/
def getSearchDirs (host : Host) : Except Str (List SearchDir) :=
  let dirs : List SearchDir := []
  match host.cwd with
  | .error e => .error e
  | .ok cwd =>
    let projectDir := host.join [cwd, ".claude".toList, "hotcontext".toList]
    let dirs := dirs ++ [{ scope := "PROJECT".toList, dir := projectDir }]
    match host.homedir with
    | .error e => .error e
    | .ok homedir =>
      let personalDir := host.join [homedir, ".claude".toList, "hotcontext".toList]
      let dirs := dirs ++ [{ scope := "PERSONAL".toList, dir := personalDir }]
      .ok dirs

/-- The list `getSearchDirs()` returns in a run where `process.cwd()` and
`os.homedir()` return the values of `env`. -/
def searchDirs (env : Env) : List SearchDir :=
  let dirs : List SearchDir := []
  let projectDir := env.join [env.cwd, ".claude".toList, "hotcontext".toList]
  let dirs := dirs ++ [{ scope := "PROJECT".toList, dir := projectDir }]
  let personalDir := env.join [env.homedir, ".claude".toList, "hotcontext".toList]
  let dirs := dirs ++ [{ scope := "PERSONAL".toList, dir := personalDir }]
  dirs

/-- The path `path.join(dir, tag + ".md")` that `resolveTag` probes in a directory. -/
def bundlePath (join : List Str → Str) (dir tag : Str) : Str :=
  join [dir, tag ++ ".md".toList]

/-- The function `resolveTag(tag, searchDirs)`; `none` is `null`.  An existence
check that throws is caught and the scope skipped. -/
def resolveTag (join : List Str → Str) (fs : FS) (tag : Str) :
    List SearchDir → Option Resolution
  | [] => none
  | sd :: rest =>
    let filePath := bundlePath join sd.dir tag
    match fs.existsSync filePath with
    | .ok true => some { scope := sd.scope, filePath := filePath }
    | .ok false => resolveTag join fs tag rest
    | .error _ => resolveTag join fs tag rest

/-! ## Bundle loading -/

/-- The tail `\r?\n?([\s\S]*)$` of the front-matter pattern, after the closing
hyphens. -/
def frontmatterTail (g1 : Str) : Cont (Str × Str) :=
  optG '\r' (optG '\n' (anyStarG (fun g2 => eoi (g1, g2)) []))

/-- The part `\r?\n---\r?\n?([\s\S]*)$` of the front-matter pattern that follows
the lazy group `g1`. -/
def frontmatterClose (g1 : Str) : Cont (Str × Str) :=
  optG '\r' (lit '\n' (lit '-' (lit '-' (lit '-' (frontmatterTail g1)))))

/-- The pattern `^---\r?\n([\s\S]*?)\r?\n---\r?\n?([\s\S]*)$` tried at index 0 (the
only index where `^` holds); the result is the two capture groups. -/
def frontmatterRe : Cont (Str × Str) :=
  lit '-' (lit '-' (lit '-' (optG '\r' (lit '\n' (anyStarL frontmatterClose [])))))

/-- The function `stripFrontmatter(content)`. -/
def stripFrontmatter (content : Str) : Str :=
  match frontmatterRe content with
  | some m => m.2
  | none => content

/-- The characters `String.prototype.trim` removes: WhiteSpace and LineTerminator
of ECMAScript. -/
def isWhiteSpace (c : Char) : Bool :=
  let n := c.toNat
  n == 0x09 || n == 0x0A || n == 0x0B || n == 0x0C || n == 0x0D || n == 0x20 ||
  n == 0xA0 || n == 0x1680 || (0x2000 ≤ n && n ≤ 0x200A) || n == 0x2028 ||
  n == 0x2029 || n == 0x202F || n == 0x205F || n == 0x3000 || n == 0xFEFF

/-- The method `String.prototype.trim`. -/
def trim (s : Str) : Str :=
  (s.dropWhile isWhiteSpace).rdropWhile isWhiteSpace

/-- The function `loadBundle(filePath)`; a read that throws propagates. -/
def loadBundle (fs : FS) (filePath : Str) : Except Str Str :=
  match fs.readFileSync filePath with
  | .ok raw => .ok (trim (stripFrontmatter raw))
  | .error e => .error e

/-! ## Output formatting -/

/-- An entry `{ tag, content, scope }` of the `resolved` array. -/
structure Resolved where
  tag : Str
  content : Str
  scope : Str
deriving DecidableEq, Repr

/-- The header line of a section. -/
def header (tag : Str) : Str :=
  "--- hotcontext: ".toList ++ tag ++ " ---".toList

/-- The method `Array.prototype.join` with the separator `sep`. -/
def join (sep : Str) (parts : List Str) : Str :=
  List.intercalate sep parts

/-- The function `formatOutput(resolved, warnings)`. -/
def formatOutput (resolved : List Resolved) (warnings : List Str) : Str :=
  let parts : List Str := []
  let parts := resolved.foldl (fun parts r => parts ++ [header r.tag] ++ [r.content] ++ [[]]) parts
  let parts := warnings.foldl (fun parts w => parts ++ [w]) parts
  trim (join ['\n'] parts)

/-! ## The pass of `main` -/

/-- The warning for a tag found in no scope. -/
def notFoundWarning (tag : Str) : Str :=
  "[hotcontext] No bundle found for +".toList ++ tag

/-- The warning for a tag whose bundle failed to load with message `msg`. -/
def loadErrorWarning (tag msg : Str) : Str :=
  "[hotcontext] Error loading +".toList ++ tag ++ ": ".toList ++ msg

/-- One iteration of the `for (const tag of tags)` loop of `main` on the state
`(resolved, warnings)`. -/
def processTag (join : List Str → Str) (fs : FS) (searchDirs : List SearchDir)
    (st : List Resolved × List Str) (tag : Str) : List Resolved × List Str :=
  match resolveTag join fs tag searchDirs with
  | some result =>
    match loadBundle fs result.filePath with
    | .ok content => (st.1 ++ [{ tag := tag, content := content, scope := result.scope }], st.2)
    | .error msg => (st.1, st.2 ++ [loadErrorWarning tag msg])
  | none => (st.1, st.2 ++ [notFoundWarning tag])

/-- The part of `main` from `getSearchDirs()` to the end of the loop over `tags`:
the arrays `resolved` and `warnings`, or the error that `getSearchDirs()` throws. -/
def runPass (host : Host) (fs : FS) (tags : List Str) :
    Except Str (List Resolved × List Str) :=
  match getSearchDirs host with
  | .error e => .error e
  | .ok searchDirs => .ok (tags.foldl (processTag host.join fs searchDirs) ([], []))

/-- The arrays `resolved` and `warnings` of `main` after its loop over `tags`, in a
run where `process.cwd()` and `os.homedir()` return the values of `env`. -/
def resolveAll (env : Env) (fs : FS) (tags : List Str) : List Resolved × List Str :=
  let dirs := searchDirs env
  tags.foldl (processTag env.join fs dirs) ([], [])

/-- What `main` writes to standard output for a prompt string, in a run where
`process.cwd()` and `os.homedir()` return the values of `env`: nothing when
there is no tag (`process.exit(0)`) or when the formatted output is empty. -/
def runPrompt (env : Env) (fs : FS) (prompt : Str) : Str :=
  let tags := parseTags prompt
  if tags.length = 0 then []
  else
    let rw := resolveAll env fs tags
    let output := formatOutput rw.1 rw.2
    if output ≠ [] then output else []

/-! ## The entry point `main` -/

/-- A value returned by `JSON.parse`.  Of a number only whether it is zero matters
to the resolver. -/
inductive Json where
  | null : Json
  | bool (b : Bool) : Json
  | num (isZero : Bool) : Json
  | str (s : Str) : Json
  | arr (items : List Json) : Json
  | obj (fields : List (Str × Json)) : Json

/-- What `main` takes from the JavaScript runtime: `JSON.parse`, which throws with a
message on a text that is not JSON, and the messages of the two `TypeError`s
that the body of `main` can raise. -/
structure Runtime where
  parse : Str → Except Str Json
  nullPropertyMessage : Str
  notAFunctionMessage : Str

/-- The value of `input.prompt`; `none` is `undefined`.  Reading a property of
`null` throws; in an object the last field of that name counts; the other
values have no such property. -/
def getPrompt (rt : Runtime) : Json → Except Str (Option Json)
  | .null => .error rt.nullPropertyMessage
  | .obj fields => .ok ((fields.reverse.find? fun kv => kv.1 = "prompt".toList).map Prod.snd)
  | _ => .ok none

/-- JavaScript truthiness of a JSON value. -/
def truthy : Json → Bool
  | .null => false
  | .bool b => b
  | .num isZero => !isZero
  | .str s => !s.isEmpty
  | .arr _ => true
  | .obj _ => true

/-- The value of `input.prompt || ""`. -/
def promptOrEmpty : Option Json → Json
  | some v => if truthy v then v else .str []
  | none => .str []

/-- What a run of the resolver leaves: the text written to standard output, the
text written to standard error, and the exit code of the process. -/
structure Outcome where
  stdout : Str
  stderr : Str
  exitCode : Nat
deriving DecidableEq, Repr

/-- The `catch` block of `main`: the diagnostic goes to standard error and the
process ends normally. -/
def resolverError (msg : Str) : Outcome :=
  { stdout := [], stderr := "[hotcontext] Resolver error: ".toList ++ msg ++ ['\n'],
    exitCode := 0 }

/-- The function `main()` on the text read from standard input.  A prompt that is
not a string has no `match` method, so `parseTags` throws; an error thrown by
`getSearchDirs()` reaches the `catch` block like the others. -/
def main (rt : Runtime) (host : Host) (fs : FS) (stdin : Str) : Outcome :=
  match rt.parse stdin with
  | .error msg => resolverError msg
  | .ok input =>
    match getPrompt rt input with
    | .error msg => resolverError msg
    | .ok p =>
      match promptOrEmpty p with
      | .str prompt =>
        let tags := parseTags prompt
        if tags.length = 0 then { stdout := [], stderr := [], exitCode := 0 }
        else
          match runPass host fs tags with
          | .error msg => resolverError msg
          | .ok rw =>
            let output := formatOutput rw.1 rw.2
            { stdout := if output ≠ [] then output else [], stderr := [], exitCode := 0 }
      | _ => resolverError rt.notAFunctionMessage

/-! ## Specification-side definitions -/

/-- Spec-side: a list with every repeat after the first occurrence dropped. -/
def firstOccurrences : List Str → List Str
  | [] => []
  | x :: xs => x :: (firstOccurrences xs).filter fun y => y ≠ x

/-- The tag value of each match of the tag pattern, with the index where the
match starts, left to right. -/
def tagOccurrences (prompt : Str) : List (Nat × Str) :=
  (matchAll tagRe prompt).map fun m => (m.1, m.2.drop 1)

/-- The start index of the first match whose tag value is `tag`, if any. -/
def firstStart (prompt : Str) (tag : Str) : Option Nat :=
  ((tagOccurrences prompt).find? fun m => m.2 = tag).map Prod.fst

/-- Spec-side: the lines `formatOutput` joins, section by section and then the
warnings. -/
def outputLines (resolved : List (Str × Str)) (warnings : List Str) : List Str :=
  (resolved.map fun p => [header p.1, p.2, []]).flatten ++ warnings

/-- Spec-side: in `s`, right after the text `pre` stands a `+` followed by `tag`, a
non-empty run of tag characters that the following text `post` does not extend. -/
def TagAt (s pre tag post : Str) : Prop :=
  s = pre ++ '+' :: (tag ++ post) ∧ tag ≠ [] ∧ (∀ c ∈ tag, isTagChar c = true) ∧
    ∀ c, post.head? = some c → isTagChar c = false

/-- The section the loop of `main` pushes for a tag, if its bundle resolves and loads. -/
def sectionOf (env : Env) (fs : FS) (tag : Str) : Option Resolved :=
  match resolveTag env.join fs tag (searchDirs env) with
  | some result =>
    match loadBundle fs result.filePath with
    | .ok content => some { tag := tag, content := content, scope := result.scope }
    | .error _ => none
  | none => none

/-- The warning the loop of `main` pushes for a tag, if its bundle does not resolve
or does not load. -/
def warningOf (env : Env) (fs : FS) (tag : Str) : Option Str :=
  match resolveTag env.join fs tag (searchDirs env) with
  | some result =>
    match loadBundle fs result.filePath with
    | .ok _ => none
    | .error msg => some (loadErrorWarning tag msg)
  | none => some (notFoundWarning tag)

/-- The bundle file of a tag in the PROJECT directory. -/
def projectPath (env : Env) (tag : Str) : Str :=
  bundlePath env.join (env.join [env.cwd, ".claude".toList, "hotcontext".toList]) tag

/-- The bundle file of a tag in the PERSONAL directory. -/
def personalPath (env : Env) (tag : Str) : Str :=
  bundlePath env.join (env.join [env.homedir, ".claude".toList, "hotcontext".toList]) tag

/-- What a greedy optional character `c?` consumes when the rest of the pattern
cannot fail: a leading `c`, if there is one. -/
def skipOpt (c : Char) : Str → Str
  | [] => []
  | d :: t => if d = c then t else d :: t

/-! ## Sample inputs -/

/-- A sample environment; on these inputs `path.join` only inserts separators. -/
def sampleEnv : Env :=
  { cwd := "/work".toList, homedir := "/home/u".toList,
    join := fun parts => List.intercalate ['/'] parts }

/-- A filesystem where `simple.md` exists and is readable in both scopes and
`mine.md` in the PERSONAL scope only. -/
def sampleFS : FS :=
  { existsSync := fun p =>
      .ok (p = "/work/.claude/hotcontext/simple.md".toList ||
        p = "/home/u/.claude/hotcontext/simple.md".toList ||
        p = "/home/u/.claude/hotcontext/mine.md".toList)
    readFileSync := fun p =>
      if p = "/work/.claude/hotcontext/simple.md".toList then
        .ok "---\nname: simple\n---\n# Body\n".toList
      else if p = "/home/u/.claude/hotcontext/simple.md".toList then
        .ok "# Personal\n".toList
      else if p = "/home/u/.claude/hotcontext/mine.md".toList then
        .ok "# Mine\n".toList
      else .error "ENOENT: no such file or directory".toList }

/-- A filesystem where `simple.md` exists in both scopes but the PROJECT file
cannot be read. -/
def unreadableFS : FS :=
  { existsSync := fun p =>
      .ok (p = "/work/.claude/hotcontext/simple.md".toList ||
        p = "/home/u/.claude/hotcontext/simple.md".toList)
    readFileSync := fun p =>
      if p = "/home/u/.claude/hotcontext/simple.md".toList then
        .ok "# Personal\n".toList
      else .error "EACCES: permission denied".toList }

/-- A filesystem where the PROJECT `simple.md` mentions another tag in its body. -/
def nestedFS : FS :=
  { existsSync := fun p =>
      .ok (p = "/work/.claude/hotcontext/simple.md".toList ||
        p = "/home/u/.claude/hotcontext/mine.md".toList)
    readFileSync := fun p =>
      if p = "/work/.claude/hotcontext/simple.md".toList then
        .ok "use +mine and +nope here\n".toList
      else if p = "/home/u/.claude/hotcontext/mine.md".toList then
        .ok "# Mine\n".toList
      else .error "ENOENT: no such file or directory".toList }

/-- A host started in a directory that has been removed: `process.cwd()` throws. -/
def removedCwdHost : Host :=
  { cwd := .error "ENOENT: no such file or directory, uv_cwd".toList
    homedir := .ok "/home/u".toList
    join := fun parts => List.intercalate ['/'] parts }

/-- A runtime whose `JSON.parse` knows the empty object and one envelope, and
rejects every other text. -/
def sampleRuntime : Runtime :=
  { parse := fun s =>
      if s = "\x7b\x7d".toList then .ok (.obj [])
      else if s = "\x7b\"prompt\": \"+simple +nope\"\x7d".toList then
        .ok (.obj [("prompt".toList, .str "+simple +nope".toList)])
      else .error "Unexpected token".toList
    nullPropertyMessage := "Cannot read properties of null".toList
    notAFunctionMessage := "prompt.match is not a function".toList }

/-- A filesystem whose PROJECT `simple.md` holds front matter and nothing else. -/
def emptyBodyFS : FS :=
  { existsSync := fun p => .ok (p = "/work/.claude/hotcontext/simple.md".toList)
    readFileSync := fun p =>
      if p = "/work/.claude/hotcontext/simple.md".toList then
        .ok "---\nname: simple\n---\n".toList
      else .error "ENOENT: no such file or directory".toList }

/-! ## Lemmas on the combinators and the tag pattern -/

theorem starG_capture {α : Type} (p : Char → Bool) (f : Str → Str → α) (acc s : Str) :
    starG p (fun g r => some (f g r)) acc s
      = some (f (acc ++ s.takeWhile p) (s.dropWhile p)) := by
  induction s generalizing acc with
  | nil => simp [starG]
  | cons c t ih =>
    by_cases hc : p c = true
    · simp [starG, hc, ih, List.takeWhile_cons, List.dropWhile_cons, Option.orElse]
    · simp [starG, hc, List.takeWhile_cons, List.dropWhile_cons]

theorem tagRe_nil : tagRe [] = none := rfl

theorem tagRe_cons_ne (c : Char) (t : Str) (h : c ≠ '+') : tagRe (c :: t) = none := by
  simp [tagRe, lit, h]

theorem tagRe_plus (t : Str) :
    tagRe ('+' :: t) =
      if t.takeWhile isTagChar = [] then none
      else some ('+' :: t.takeWhile isTagChar, t.dropWhile isTagChar) := by
  cases t with
  | nil => simp [tagRe, lit, plusG]
  | cons c u =>
    by_cases hc : isTagChar c = true
    · simp [tagRe, lit, plusG, hc, starG_capture, List.takeWhile_cons, List.dropWhile_cons]
    · simp [tagRe, lit, plusG, hc, List.takeWhile_cons]

theorem isTagChar_plus : isTagChar '+' = false := by decide

theorem takeWhile_tag_append (tag post : Str) (h1 : ∀ c ∈ tag, isTagChar c = true)
    (h2 : ∀ c, post.head? = some c → isTagChar c = false) :
    (tag ++ post).takeWhile isTagChar = tag ∧ (tag ++ post).dropWhile isTagChar = post := by
  induction tag with
  | nil =>
    cases post with
    | nil => simp
    | cons c u =>
      have hc : isTagChar c = false := h2 c rfl
      simp [List.takeWhile_cons, List.dropWhile_cons, hc]
  | cons a t ih =>
    have ha : isTagChar a = true := h1 a (List.mem_cons_self _ _)
    have ih2 := ih (fun c hc => h1 c (List.mem_cons_of_mem _ hc))
    simp [List.takeWhile_cons, List.dropWhile_cons, ha, ih2.1, ih2.2]

theorem takeWhile_before_plus (pre rest : Str) :
    (pre ++ '+' :: rest).takeWhile isTagChar = pre.takeWhile isTagChar ∧
    (pre ++ '+' :: rest).dropWhile isTagChar = pre.dropWhile isTagChar ++ '+' :: rest := by
  induction pre with
  | nil => simp [List.takeWhile_cons, List.dropWhile_cons, isTagChar_plus]
  | cons a t ih =>
    by_cases ha : isTagChar a = true
    · simp [List.takeWhile_cons, List.dropWhile_cons, ha, ih.1, ih.2]
    · simp [List.takeWhile_cons, List.dropWhile_cons, ha]

theorem dropWhile_head_false (p : Char → Bool) (s : Str) (c : Char)
    (h : (s.dropWhile p).head? = some c) : p c = false := by
  induction s with
  | nil => simp at h
  | cons a t ih =>
    by_cases ha : p a = true
    · rw [List.dropWhile_cons_of_pos ha] at h
      exact ih h
    · rw [List.dropWhile_cons_of_neg ha] at h
      simp at h
      subst h
      simpa using ha

theorem mem_takeWhile_true (p : Char → Bool) (s : Str) (c : Char)
    (h : c ∈ s.takeWhile p) : p c = true := by
  induction s with
  | nil => simp at h
  | cons a t ih =>
    by_cases ha : p a = true
    · rw [List.takeWhile_cons_of_pos ha] at h
      rcases List.mem_cons.1 h with h | h
      · subst h
        exact ha
      · exact ih h
    · rw [List.takeWhile_cons_of_neg ha] at h
      simp at h

/-- What a successful search of the tag pattern returns: the first `+tag` of the
input, at its index, with the input after it. -/
theorem execFrom_tagRe_some (i : Nat) (s : Str) (j : Nat) (m rest : Str)
    (h : execFrom tagRe i s = some (j, m, rest)) :
    ∃ pre tag, TagAt s pre tag rest ∧ j = i + pre.length ∧ m = '+' :: tag := by
  induction s generalizing i with
  | nil => simp [execFrom, tagRe_nil] at h
  | cons c t ih =>
    rw [execFrom] at h
    by_cases hc : c = '+'
    · subst hc
      rw [tagRe_plus] at h
      by_cases hr : t.takeWhile isTagChar = []
      · simp only [hr, if_true] at h
        obtain ⟨pre, tag, hT, hj, hm⟩ := ih (i + 1) h
        refine ⟨'+' :: pre, tag, ?_, ?_, hm⟩
        · obtain ⟨h1, h2, h3, h4⟩ := hT
          exact ⟨by rw [h1]; simp, h2, h3, h4⟩
        · simp [hj]; omega
      · simp only [hr, if_false] at h
        simp only [Option.some.injEq, Prod.mk.injEq] at h
        obtain ⟨hj, hm, hrest⟩ := h
        refine ⟨[], t.takeWhile isTagChar, ⟨?_, hr, ?_, ?_⟩, by simp [hj], hm.symm⟩
        · rw [← hrest]; simp [List.takeWhile_append_dropWhile]
        · intro c hc; exact mem_takeWhile_true _ _ _ hc
        · intro c hc; rw [← hrest] at hc; exact dropWhile_head_false _ _ _ hc
    · rw [tagRe_cons_ne c t hc] at h
      obtain ⟨pre, tag, hT, hj, hm⟩ := ih (i + 1) h
      refine ⟨c :: pre, tag, ?_, ?_, hm⟩
      · obtain ⟨h1, h2, h3, h4⟩ := hT
        exact ⟨by rw [h1]; simp, h2, h3, h4⟩
      · simp [hj]; omega

/-- Where a `+tag` occurrence lies with respect to the first match found: it is
that match, or it lies in the input after it. -/
theorem execFrom_tagRe_covers (i : Nat) (s pre tag post : Str) (hT : TagAt s pre tag post) :
    ∃ j m rest, execFrom tagRe i s = some (j, m, rest) ∧
      ((j = i + pre.length ∧ m = '+' :: tag) ∨
        ∃ pre2, TagAt rest pre2 tag post ∧ j + m.length + pre2.length = i + pre.length) := by
  induction s generalizing i pre with
  | nil =>
    obtain ⟨h1, _⟩ := hT
    simp at h1
  | cons c t ih =>
    obtain ⟨h1, h2, h3, h4⟩ := hT
    rw [execFrom]
    cases pre with
    | nil =>
      simp only [List.nil_append, List.cons_append, List.cons.injEq] at h1
      obtain ⟨hc, ht⟩ := h1
      subst hc
      have htw := takeWhile_tag_append tag post h3 h4
      rw [tagRe_plus, ht, htw.1, htw.2]
      simp only [h2, if_false]
      exact ⟨i, '+' :: tag, post, rfl, Or.inl ⟨by simp, rfl⟩⟩
    | cons a pre1 =>
      simp only [List.cons_append, List.cons.injEq] at h1
      obtain ⟨hc, ht⟩ := h1
      subst hc
      have hT1 : TagAt t pre1 tag post := ⟨ht, h2, h3, h4⟩
      by_cases hc : c = '+'
      · subst hc
        rw [tagRe_plus]
        by_cases hr : t.takeWhile isTagChar = []
        · simp only [hr, if_true]
          obtain ⟨j, m, rest, he, hcase⟩ := ih (i + 1) pre1 hT1
          refine ⟨j, m, rest, he, ?_⟩
          rcases hcase with ⟨hj, hm⟩ | ⟨pre2, hT2, hlen⟩
          · exact Or.inl ⟨by simp [hj]; omega, hm⟩
          · exact Or.inr ⟨pre2, hT2, by simp [hlen]; omega⟩
        · simp only [hr, if_false]
          refine ⟨i, _, _, rfl, Or.inr ⟨pre1.dropWhile isTagChar, ?_, ?_⟩⟩
          · refine ⟨?_, h2, h3, h4⟩
            rw [ht]
            have := (takeWhile_before_plus pre1 (tag ++ post)).2
            simpa using this
          · have e1 : t.takeWhile isTagChar = pre1.takeWhile isTagChar := by
              rw [ht]
              have := (takeWhile_before_plus pre1 (tag ++ post)).1
              simpa using this
            have e2 : (pre1.takeWhile isTagChar).length + (pre1.dropWhile isTagChar).length
                = pre1.length := by
              rw [← List.length_append, List.takeWhile_append_dropWhile]
            rw [e1]
            simp only [List.length_cons]
            omega
      · rw [tagRe_cons_ne c t hc]
        obtain ⟨j, m, rest, he, hcase⟩ := ih (i + 1) pre1 hT1
        refine ⟨j, m, rest, he, ?_⟩
        rcases hcase with ⟨hj, hm⟩ | ⟨pre2, hT2, hlen⟩
        · exact Or.inl ⟨by simp [hj]; omega, hm⟩
        · exact Or.inr ⟨pre2, hT2, by simp [hlen]; omega⟩

/-! ## Lemmas on the list of all matches -/

/-- Every recorded match is a `+tag` occurrence of the input, at the recorded index. -/
theorem matchAllAux_sound (fuel i : Nat) (s : Str) (j : Nat) (m : Str)
    (h : (j, m) ∈ matchAllAux tagRe fuel i s) :
    ∃ pre tag post, TagAt s pre tag post ∧ j = i + pre.length ∧ m = '+' :: tag := by
  induction fuel generalizing i s with
  | zero => simp [matchAllAux] at h
  | succ n ih =>
    rw [matchAllAux] at h
    cases he : execFrom tagRe i s with
    | none => simp [he] at h
    | some r =>
      obtain ⟨j0, m0, rest⟩ := r
      simp only [he, List.mem_cons, Prod.mk.injEq] at h
      obtain ⟨pre0, tag0, hT0, hj0, hm0⟩ := execFrom_tagRe_some i s j0 m0 rest he
      rcases h with ⟨hj, hm⟩ | h
      · exact ⟨pre0, tag0, rest, hT0, by rw [hj, hj0], by rw [hm, hm0]⟩
      · obtain ⟨pre, tag, post, hT, hj, hm⟩ := ih _ _ h
        obtain ⟨a1, a2, a3, a4⟩ := hT
        obtain ⟨b1, _, _, _⟩ := hT0
        refine ⟨pre0 ++ '+' :: (tag0 ++ pre), tag, post, ⟨?_, a2, a3, a4⟩, ?_, hm⟩
        · rw [b1, a1]; simp
        · rw [hj, hj0, hm0]; simp; omega

/-- The recorded start indices increase strictly. -/
theorem matchAllAux_sorted (fuel i : Nat) (s : Str) :
    (matchAllAux tagRe fuel i s).Pairwise fun a b => a.1 < b.1 := by
  induction fuel generalizing i s with
  | zero => simp [matchAllAux]
  | succ n ih =>
    rw [matchAllAux]
    cases he : execFrom tagRe i s with
    | none => simp
    | some r =>
      obtain ⟨j0, m0, rest⟩ := r
      simp only
      refine List.Pairwise.cons ?_ (ih _ _)
      intro b hb
      obtain ⟨pre0, tag0, _, _, hm0⟩ := execFrom_tagRe_some i s j0 m0 rest he
      obtain ⟨pre, tag, post, _, hj, _⟩ := matchAllAux_sound n _ rest b.1 b.2 hb
      rw [hj, hm0]
      simp only [List.length_cons]
      omega

/-- With fuel above the length of the input, every `+tag` occurrence is recorded. -/
theorem matchAllAux_complete (fuel i : Nat) (s pre tag post : Str) (hf : s.length < fuel)
    (hT : TagAt s pre tag post) :
    (i + pre.length, '+' :: tag) ∈ matchAllAux tagRe fuel i s := by
  induction fuel generalizing i s pre with
  | zero => omega
  | succ n ih =>
    rw [matchAllAux]
    obtain ⟨j, m, rest, he, hcase⟩ := execFrom_tagRe_covers i s pre tag post hT
    rw [he]
    simp only
    rcases hcase with ⟨hj, hm⟩ | ⟨pre2, hT2, hlen⟩
    · rw [hj, hm]
      exact List.mem_cons_self _ _
    · obtain ⟨pre0, tag0, hT0, _, hm0⟩ := execFrom_tagRe_some i s j m rest he
      have hlt : rest.length < n := by
        obtain ⟨b1, _⟩ := hT0
        have : s.length = pre0.length + (1 + tag0.length + rest.length) := by
          rw [b1]; simp; omega
        omega
      have := ih (j + m.length) rest pre2 hlt hT2
      rw [hlen] at this
      exact List.mem_cons_of_mem _ this

/-- The tag occurrences of a prompt are exactly its `+tag` places. -/
theorem mem_tagOccurrences (prompt : Str) (j : Nat) (tag : Str) :
    (j, tag) ∈ tagOccurrences prompt ↔
      ∃ pre post, TagAt prompt pre tag post ∧ j = pre.length := by
  unfold tagOccurrences matchAll
  constructor
  · intro h
    obtain ⟨⟨j0, m0⟩, hm, heq⟩ := List.mem_map.1 h
    simp only [Prod.mk.injEq] at heq
    obtain ⟨pre, tag0, post, hT, hj, hm0⟩ := matchAllAux_sound _ _ _ _ _ hm
    refine ⟨pre, post, ?_, by omega⟩
    rw [← heq.2, hm0]
    simpa using hT
  · rintro ⟨pre, post, hT, hj⟩
    have := matchAllAux_complete (prompt.length + 1) 0 prompt pre tag post (by omega) hT
    refine List.mem_map.2 ⟨(0 + pre.length, '+' :: tag), this, ?_⟩
    simp [hj]

theorem tagOccurrences_sorted (prompt : Str) :
    (tagOccurrences prompt).Pairwise fun a b => a.1 < b.1 := by
  unfold tagOccurrences matchAll
  rw [List.pairwise_map]
  exact matchAllAux_sorted _ _ _

/-! ## Lemmas on deduplication -/

theorem mem_firstOccurrences (l : List Str) (x : Str) : x ∈ firstOccurrences l ↔ x ∈ l := by
  induction l with
  | nil => simp [firstOccurrences]
  | cons a t ih =>
    simp only [firstOccurrences, List.mem_cons, List.mem_filter, ih]
    by_cases hx : x = a <;> simp [hx]

theorem nodup_firstOccurrences (l : List Str) : (firstOccurrences l).Nodup := by
  induction l with
  | nil => simp [firstOccurrences]
  | cons a t ih =>
    simp only [firstOccurrences]
    refine List.nodup_cons.2 ⟨?_, ih.filter _⟩
    simp [List.mem_filter]

theorem firstOccurrences_snoc (l : List Str) (x : Str) :
    firstOccurrences (l ++ [x]) =
      if x ∈ l then firstOccurrences l else firstOccurrences l ++ [x] := by
  induction l with
  | nil => simp [firstOccurrences]
  | cons a t ih =>
    rw [List.cons_append, firstOccurrences, ih]
    by_cases hx : x ∈ t
    · simp [hx, firstOccurrences]
    · by_cases hxa : x = a
      · subst hxa
        simp [hx, List.filter_append, firstOccurrences]
      · simp [hx, hxa, List.filter_append, firstOccurrences]

/-- The deduplication loop of `parseTags`, started after the matches `done`. -/
theorem foldl_parseTagsStep (ms : List Str) (seen done : List Str)
    (hseen : ∀ x, x ∈ seen ↔ x ∈ done) :
    (ms.foldl parseTagsStep (seen, firstOccurrences done)).2
      = firstOccurrences (done ++ ms.map fun m => m.drop 1) := by
  induction ms generalizing seen done with
  | nil => simp
  | cons m t ih =>
    simp only [List.foldl_cons, List.map_cons]
    have hsn := firstOccurrences_snoc done (m.drop 1)
    by_cases hm : m.drop 1 ∈ seen
    · have hd : m.drop 1 ∈ done := (hseen _).1 hm
      rw [if_pos hd] at hsn
      have hstep : parseTagsStep (seen, firstOccurrences done) m
          = (seen, firstOccurrences (done ++ [m.drop 1])) := by
        simp only [parseTagsStep]
        rw [if_pos hm, hsn]
      rw [hstep, ih seen (done ++ [m.drop 1])]
      · simp
      · intro x
        simp only [List.mem_append, List.mem_singleton, hseen]
        constructor
        · exact Or.inl
        · rintro (h | h)
          · exact h
          · rw [h]; exact hd
    · have hd : m.drop 1 ∉ done := fun h => hm ((hseen _).2 h)
      rw [if_neg hd] at hsn
      have hstep : parseTagsStep (seen, firstOccurrences done) m
          = (m.drop 1 :: seen, firstOccurrences (done ++ [m.drop 1])) := by
        simp only [parseTagsStep]
        rw [if_neg hm, hsn]
      rw [hstep, ih (m.drop 1 :: seen) (done ++ [m.drop 1])]
      · simp
      · intro x
        simp only [List.mem_append, List.mem_singleton, List.mem_cons, hseen]
        tauto

/-- The result of `parseTags` is the list of tag values of all matches with the
repeats dropped. -/
theorem parseTags_eq (prompt : Str) :
    parseTags prompt = firstOccurrences ((tagOccurrences prompt).map Prod.snd) := by
  unfold parseTags strMatchG tagOccurrences
  cases hm : matchAll tagRe prompt with
  | nil => simp [firstOccurrences]
  | cons a t =>
    simp only
    have := foldl_parseTagsStep ((a :: t).map Prod.snd) [] [] (by simp)
    rw [show firstOccurrences [] = [] from rfl, List.nil_append] at this
    rw [this, List.map_map, List.map_map]
    rfl

theorem mem_parseTags (prompt tag : Str) :
    tag ∈ parseTags prompt ↔ ∃ pre post, TagAt prompt pre tag post := by
  rw [parseTags_eq, mem_firstOccurrences]
  constructor
  · intro h
    obtain ⟨⟨j, t⟩, hjt, heq⟩ := List.mem_map.1 h
    simp only at heq
    subst heq
    obtain ⟨pre, post, hT, _⟩ := (mem_tagOccurrences prompt j t).1 hjt
    exact ⟨pre, post, hT⟩
  · rintro ⟨pre, post, hT⟩
    exact List.mem_map.2 ⟨(pre.length, tag), (mem_tagOccurrences _ _ _).2 ⟨pre, post, hT, rfl⟩, rfl⟩

/-- In a list of occurrences with increasing start indices, a value whose first
occurrence starts earlier stands earlier after deduplication. -/
theorem firstOccurrences_order (l : List (Nat × Str)) (hp : l.Pairwise fun a b => a.1 < b.1)
    (a b : Str) (i j : Nat)
    (hi : (l.find? fun m => m.2 = a).map Prod.fst = some i)
    (hj : (l.find? fun m => m.2 = b).map Prod.fst = some j) (hij : i < j) :
    [a, b].Sublist (firstOccurrences (l.map Prod.snd)) := by
  induction l with
  | nil => simp at hi
  | cons x t ih =>
    obtain ⟨hx, ht⟩ := List.pairwise_cons.1 hp
    have hmem : ∀ (c : Str) (k : Nat),
        (t.find? fun m => m.2 = c).map Prod.fst = some k → (k, c) ∈ t := by
      intro c k hk
      obtain ⟨y, hy, hyk⟩ := Option.map_eq_some'.1 hk
      have h1 := List.find?_some hy
      have h2 := List.mem_of_find?_eq_some hy
      simp only [decide_eq_true_eq] at h1
      have : y = (k, c) := Prod.ext hyk h1
      rw [← this]
      exact h2
    simp only [List.map_cons, firstOccurrences]
    rw [List.find?_cons] at hi hj
    by_cases ha : x.2 = a
    · simp only [ha, decide_True, Option.map_some', Option.some.injEq] at hi
      by_cases hb : x.2 = b
      · simp only [hb, decide_True, Option.map_some', Option.some.injEq] at hj
        omega
      · simp only [hb, decide_False] at hj
        have hbt : (j, b) ∈ t := hmem b j hj
        have hbm : b ∈ (firstOccurrences (t.map Prod.snd)).filter fun y => y ≠ x.2 := by
          rw [List.mem_filter, mem_firstOccurrences]
          refine ⟨List.mem_map.2 ⟨(j, b), hbt, rfl⟩, ?_⟩
          simpa using fun h => hb h.symm
        rw [← ha]
        exact List.Sublist.cons₂ _ (List.singleton_sublist.2 hbm)
    · simp only [ha, decide_False] at hi
      by_cases hb : x.2 = b
      · simp only [hb, decide_True, Option.map_some', Option.some.injEq] at hj
        have := hx (i, a) (hmem a i hi)
        simp only at this
        omega
      · simp only [hb, decide_False] at hj
        have hsub := ih ht hi hj
        have hf := hsub.filter fun y => decide (y ≠ x.2)
        have hab : [a, b].filter (fun y => decide (y ≠ x.2)) = [a, b] := by
          rw [List.filter_eq_self]
          intro y hy
          simp only [List.mem_cons, List.mem_singleton, List.not_mem_nil, or_false] at hy
          rcases hy with h | h
          · simpa [h] using fun h2 => ha h2.symm
          · simpa [h] using fun h2 => hb h2.symm
        rw [hab] at hf
        exact List.Sublist.cons _ hf

/-! ## Tag parsing: the claims -/

/-- C1: `parseTags(prompt)` contains no tag value twice; it is the list of the tag
values of all matches, left to right, with every repeat after the first
dropped; the matches are exactly the `+tag` places of the prompt, recorded
with increasing start indices; and when the first match of `a` starts before
the first match of `b`, `a` stands before `b` in the result. -/
theorem parseTags_dedup_first_occurrence_order (prompt : Str) :
    (parseTags prompt).Nodup ∧
    parseTags prompt = firstOccurrences ((tagOccurrences prompt).map Prod.snd) ∧
    (∀ j tag, (j, tag) ∈ tagOccurrences prompt ↔
      ∃ pre post, TagAt prompt pre tag post ∧ j = pre.length) ∧
    ((tagOccurrences prompt).Pairwise fun a b => a.1 < b.1) ∧
    (∀ a b i j, firstStart prompt a = some i → firstStart prompt b = some j → i < j →
      [a, b].Sublist (parseTags prompt)) ∧
    parseTags "+simple +simple test".toList = ["simple".toList] := by
  refine ⟨?_, parseTags_eq prompt, mem_tagOccurrences prompt, tagOccurrences_sorted prompt,
    ?_, by decide⟩
  · rw [parseTags_eq]
    exact nodup_firstOccurrences _
  · intro a b i j hi hj hij
    rw [parseTags_eq]
    exact firstOccurrences_order _ (tagOccurrences_sorted prompt) a b i j hi hj hij

/-- C2: `parseTags(prompt)` is empty exactly when no `+` of the prompt is
immediately followed by a character of `[A-Za-z0-9_-]`; a `+` before a blank,
before punctuation or at the end of the string yields no tag. -/
theorem parseTags_eq_nil_iff (prompt : Str) :
    (parseTags prompt = [] ↔
      ∀ pre c post, prompt = pre ++ '+' :: c :: post → isTagChar c = false) ∧
    parseTags "calculate x + y = z".toList = [] ∧
    parseTags "a +".toList = [] ∧ parseTags "a +. b".toList = [] := by
  refine ⟨⟨?_, ?_⟩, by decide, by decide, by decide⟩
  · intro h pre c post hp
    by_contra hc
    have hc : isTagChar c = true := by simpa using hc
    have hT : TagAt prompt pre ((c :: post).takeWhile isTagChar)
        ((c :: post).dropWhile isTagChar) := by
      refine ⟨?_, ?_, ?_, ?_⟩
      · rw [hp]
        have := List.takeWhile_append_dropWhile isTagChar (c :: post)
        rw [this]
      · rw [List.takeWhile_cons_of_pos hc]
        exact List.cons_ne_nil _ _
      · intro d hd
        exact mem_takeWhile_true _ _ _ hd
      · intro d hd
        exact dropWhile_head_false _ _ _ hd
    have := (mem_parseTags prompt _).2 ⟨pre, _, hT⟩
    rw [h] at this
    simp at this
  · intro h
    by_contra hne
    obtain ⟨tag, htag⟩ := List.exists_mem_of_ne_nil _ hne
    obtain ⟨pre, post, hT⟩ := (mem_parseTags prompt tag).1 htag
    obtain ⟨h1, h2, h3, _⟩ := hT
    cases tag with
    | nil => exact h2 rfl
    | cons c u =>
      have := h pre c (u ++ post) (by rw [h1]; simp)
      rw [h3 c (List.mem_cons_self _ _)] at this
      simp at this

/-- C3: `t` is an element of `parseTags(prompt)` exactly when `t` is non-empty,
consists of characters of `[A-Za-z0-9_-]` only, and stands in the prompt right
after a `+` as the maximal run of such characters. -/
theorem mem_parseTags_iff (prompt t : Str) :
    (t ∈ parseTags prompt ↔
      t ≠ [] ∧ (∀ c ∈ t, isTagChar c = true) ∧
        ∃ pre post, prompt = pre ++ '+' :: (t ++ post) ∧
          ∀ c, post.head? = some c → isTagChar c = false) ∧
    parseTags "+no-frontmatter test".toList = ["no-frontmatter".toList] ∧
    parseTags "use +a_b-9Z, then".toList = ["a_b-9Z".toList] := by
  refine ⟨?_, by decide, by decide⟩
  rw [mem_parseTags]
  constructor
  · rintro ⟨pre, post, h1, h2, h3, h4⟩
    exact ⟨h2, h3, pre, post, h1, h4⟩
  · rintro ⟨h2, h3, pre, post, h1, h4⟩
    exact ⟨pre, post, h1, h2, h3, h4⟩

/-! ## Scope resolution and the pass over the tags -/

theorem resolveTag_eq_none_iff (env : Env) (fs : FS) (tag : Str) (searchDirs : List SearchDir) :
    resolveTag env.join fs tag searchDirs = none ↔
      ∀ sd ∈ searchDirs, fs.existsSync (bundlePath env.join sd.dir tag) ≠ .ok true := by
  induction searchDirs with
  | nil => simp [resolveTag]
  | cons sd rest ih =>
    rw [resolveTag]
    simp only [List.mem_cons, forall_eq_or_imp]
    cases he : fs.existsSync (bundlePath env.join sd.dir tag) with
    | error e => simp [ih]
    | ok b =>
      cases b with
      | true => simp
      | false => simp [ih]

theorem resolveTag_eq_some_iff (env : Env) (fs : FS) (tag : Str) (searchDirs : List SearchDir)
    (r : Resolution) :
    resolveTag env.join fs tag searchDirs = some r ↔
      ∃ before sd after, searchDirs = before ++ sd :: after ∧
        (∀ x ∈ before, fs.existsSync (bundlePath env.join x.dir tag) ≠ .ok true) ∧
        fs.existsSync (bundlePath env.join sd.dir tag) = .ok true ∧
        r = { scope := sd.scope, filePath := bundlePath env.join sd.dir tag } := by
  induction searchDirs with
  | nil => simp [resolveTag]
  | cons sd rest ih =>
    have hskip : fs.existsSync (bundlePath env.join sd.dir tag) ≠ .ok true →
        resolveTag env.join fs tag (sd :: rest) = resolveTag env.join fs tag rest := by
      intro hne
      rw [resolveTag]
      cases he : fs.existsSync (bundlePath env.join sd.dir tag) with
      | error e => rfl
      | ok b =>
        cases b with
        | true => exact absurd he hne
        | false => rfl
    by_cases hex : fs.existsSync (bundlePath env.join sd.dir tag) = .ok true
    · have hhit : resolveTag env.join fs tag (sd :: rest)
          = some { scope := sd.scope, filePath := bundlePath env.join sd.dir tag } := by
        rw [resolveTag]
        simp only [hex]
      rw [hhit]
      constructor
      · intro h
        exact ⟨[], sd, rest, rfl, by simp, hex, (Option.some.inj h).symm⟩
      · rintro ⟨before, sd2, after, hsplit, hbefore, _, hr⟩
        cases before with
        | nil =>
          simp only [List.nil_append, List.cons.injEq] at hsplit
          rw [hr, ← hsplit.1]
        | cons b bs =>
          simp only [List.cons_append, List.cons.injEq] at hsplit
          exact absurd hex (hsplit.1 ▸ hbefore b (List.mem_cons_self _ _))
    · rw [hskip hex, ih]
      constructor
      · rintro ⟨before, sd2, after, hsplit, hbefore, hhit, hr⟩
        refine ⟨sd :: before, sd2, after, by rw [hsplit]; rfl, ?_, hhit, hr⟩
        intro x hx
        rcases List.mem_cons.1 hx with h | h
        · rw [h]; exact hex
        · exact hbefore x h
      · rintro ⟨before, sd2, after, hsplit, hbefore, hhit, hr⟩
        cases before with
        | nil =>
          simp only [List.nil_append, List.cons.injEq] at hsplit
          exact absurd (hsplit.1 ▸ hhit) hex
        | cons b bs =>
          simp only [List.cons_append, List.cons.injEq] at hsplit
          exact ⟨bs, sd2, after, hsplit.2, fun x hx => hbefore x (List.mem_cons_of_mem _ hx),
            hhit, hr⟩

theorem searchDirs_eq (env : Env) :
    searchDirs env =
      [{ scope := "PROJECT".toList,
         dir := env.join [env.cwd, ".claude".toList, "hotcontext".toList] },
       { scope := "PERSONAL".toList,
         dir := env.join [env.homedir, ".claude".toList, "hotcontext".toList] }] := rfl

/-- When `process.cwd()` and `os.homedir()` return, `getSearchDirs()` returns the
list for the returned values. -/
theorem getSearchDirs_ok (host : Host) (c h : Str) (hc : host.cwd = .ok c)
    (hh : host.homedir = .ok h) :
    getSearchDirs host = .ok (searchDirs { cwd := c, homedir := h, join := host.join }) := by
  unfold getSearchDirs
  simp only [hc, hh]
  rfl

theorem getSearchDirs_hostOf (env : Env) : getSearchDirs (hostOf env) = .ok (searchDirs env) :=
  rfl

/-- When `process.cwd()` throws, `getSearchDirs()` throws the same error. -/
theorem getSearchDirs_cwd_error (host : Host) (e : Str) (hc : host.cwd = .error e) :
    getSearchDirs host = .error e := by
  unfold getSearchDirs
  simp only [hc]

/-- When `os.homedir()` throws after `process.cwd()` returned, `getSearchDirs()`
throws the same error. -/
theorem getSearchDirs_homedir_error (host : Host) (c e : Str) (hc : host.cwd = .ok c)
    (hh : host.homedir = .error e) : getSearchDirs host = .error e := by
  unfold getSearchDirs
  simp only [hc, hh]

/-- The result of `getSearchDirs()`: an error exactly when one of the two calls
throws. -/
theorem getSearchDirs_cases (host : Host) :
    (∃ c h, host.cwd = .ok c ∧ host.homedir = .ok h ∧
      getSearchDirs host = .ok (searchDirs { cwd := c, homedir := h, join := host.join })) ∨
    (∃ e, getSearchDirs host = .error e ∧
      (host.cwd = .error e ∨ host.homedir = .error e)) := by
  cases hc : host.cwd with
  | error e => exact Or.inr ⟨e, getSearchDirs_cwd_error host e hc, Or.inl rfl⟩
  | ok c =>
    cases hh : host.homedir with
    | error e => exact Or.inr ⟨e, getSearchDirs_homedir_error host c e hc hh, Or.inr rfl⟩
    | ok h => exact Or.inl ⟨c, h, rfl, rfl, getSearchDirs_ok host c h hc hh⟩

/-- When `process.cwd()` and `os.homedir()` return, the pass of `main` gives the
arrays of `resolveAll` for the returned values. -/
theorem runPass_ok (host : Host) (fs : FS) (tags : List Str) (c h : Str)
    (hc : host.cwd = .ok c) (hh : host.homedir = .ok h) :
    runPass host fs tags
      = .ok (resolveAll { cwd := c, homedir := h, join := host.join } fs tags) := by
  unfold runPass
  rw [getSearchDirs_ok host c h hc hh]
  rfl

theorem runPass_hostOf (env : Env) (fs : FS) (tags : List Str) :
    runPass (hostOf env) fs tags = .ok (resolveAll env fs tags) := rfl

theorem runPass_error (host : Host) (fs : FS) (tags : List Str) (e : Str)
    (h : getSearchDirs host = .error e) : runPass host fs tags = .error e := by
  unfold runPass
  rw [h]

/-- A tag whose file exists in the PROJECT directory resolves there. -/
theorem resolveTag_project (env : Env) (fs : FS) (tag : Str)
    (hex : fs.existsSync (projectPath env tag) = .ok true) :
    resolveTag env.join fs tag (searchDirs env)
      = some { scope := "PROJECT".toList, filePath := projectPath env tag } := by
  rw [searchDirs_eq, resolveTag]
  simp only [projectPath] at hex
  simp only [hex, projectPath]

/-- The loop of `main` pushes, tag by tag, the tag's section or the tag's warning. -/
theorem foldl_processTag (env : Env) (fs : FS) (tags : List Str) (st : List Resolved × List Str) :
    tags.foldl (processTag env.join fs (searchDirs env)) st
      = (st.1 ++ tags.filterMap (sectionOf env fs), st.2 ++ tags.filterMap (warningOf env fs)) := by
  induction tags generalizing st with
  | nil => simp
  | cons t ts ih =>
    rw [List.foldl_cons, ih]
    simp only [processTag, sectionOf, warningOf, List.filterMap_cons]
    cases hr : resolveTag env.join fs t (searchDirs env) with
    | none => simp
    | some result =>
      cases hl : loadBundle fs result.filePath with
      | error e => simp [hl]
      | ok content => simp [hl]

theorem resolveAll_eq (env : Env) (fs : FS) (tags : List Str) :
    resolveAll env fs tags
      = (tags.filterMap (sectionOf env fs), tags.filterMap (warningOf env fs)) := by
  unfold resolveAll
  simp only
  rw [foldl_processTag]
  simp

theorem sectionOf_tag (env : Env) (fs : FS) (tag : Str) (r : Resolved)
    (h : sectionOf env fs tag = some r) : r.tag = tag := by
  unfold sectionOf at h
  cases hr : resolveTag env.join fs tag (searchDirs env) with
  | none => simp [hr] at h
  | some result =>
    cases hl : loadBundle fs result.filePath with
    | error e => simp [hr, hl] at h
    | ok content =>
      simp only [hr, hl, Option.some.injEq] at h
      rw [← h]

/-- In the sections of a duplicate-free tag list, those of one tag are that tag's
own section, if it has one. -/
theorem filter_sections (env : Env) (fs : FS) (tags : List Str) (hnd : tags.Nodup)
    (tag : Str) (ht : tag ∈ tags) :
    (tags.filterMap (sectionOf env fs)).filter (fun r => r.tag = tag)
      = (sectionOf env fs tag).toList := by
  induction tags with
  | nil => simp at ht
  | cons t ts ih =>
    obtain ⟨hnot, hnd2⟩ := List.nodup_cons.1 hnd
    have hothers : ∀ l : List Str, tag ∉ l →
        (l.filterMap (sectionOf env fs)).filter (fun r => r.tag = tag) = [] := by
      intro l hl
      rw [List.filter_eq_nil_iff]
      intro r hr
      obtain ⟨u, hu, hsu⟩ := List.mem_filterMap.1 hr
      have := sectionOf_tag env fs u r hsu
      simp only [decide_eq_true_eq]
      intro h2
      exact hl (h2 ▸ this ▸ hu)
    rw [List.filterMap_cons]
    by_cases htt : t = tag
    · subst htt
      cases hs : sectionOf env fs t with
      | none => simpa [hs] using hothers ts hnot
      | some r =>
        simp only [hs, Option.toList]
        rw [List.filter_cons_of_pos (by simpa using sectionOf_tag env fs t r hs), hothers ts hnot]
    · have ht2 : tag ∈ ts := by
        rcases List.mem_cons.1 ht with h | h
        · exact absurd h.symm htt
        · exact h
      cases hs : sectionOf env fs t with
      | none => simpa [hs] using ih hnd2 ht2
      | some r =>
        simp only [hs]
        rw [List.filter_cons_of_neg, ih hnd2 ht2]
        have := sectionOf_tag env fs t r hs
        simpa [this] using htt

theorem formatOutput_nil : formatOutput [] [] = [] := by decide

/-- What `main` writes is the formatted sections and warnings of the tags of the
prompt. -/
theorem runPrompt_eq (env : Env) (fs : FS) (prompt : Str) :
    runPrompt env fs prompt
      = formatOutput (resolveAll env fs (parseTags prompt)).1
          (resolveAll env fs (parseTags prompt)).2 := by
  unfold runPrompt
  simp only
  by_cases h : (parseTags prompt).length = 0
  · rw [if_pos h]
    have h0 : parseTags prompt = [] := List.length_eq_zero.1 h
    rw [h0, resolveAll_eq]
    exact formatOutput_nil.symm
  · rw [if_neg h]
    by_cases ho : formatOutput (resolveAll env fs (parseTags prompt)).1
        (resolveAll env fs (parseTags prompt)).2 = []
    · rw [if_neg (by simpa using ho), ho]
    · rw [if_pos ho]

/-- C4: `resolveTag` returns `null` exactly when no pair of the list has its file;
otherwise it returns the scope and the joined path of the first pair, in list
order, whose file exists; a scope without the file (or whose check throws) is
skipped, so a tag present only in the second scope resolves there. -/
theorem resolveTag_first_existing (env : Env) (fs : FS) (tag : Str)
    (searchDirs : List SearchDir) :
    (resolveTag env.join fs tag searchDirs = none ↔
      ∀ sd ∈ searchDirs, fs.existsSync (env.join [sd.dir, tag ++ ".md".toList]) ≠ .ok true) ∧
    (∀ r, resolveTag env.join fs tag searchDirs = some r ↔
      ∃ before sd after, searchDirs = before ++ sd :: after ∧
        (∀ x ∈ before, fs.existsSync (env.join [x.dir, tag ++ ".md".toList]) ≠ .ok true) ∧
        fs.existsSync (env.join [sd.dir, tag ++ ".md".toList]) = .ok true ∧
        r = { scope := sd.scope, filePath := env.join [sd.dir, tag ++ ".md".toList] }) ∧
    (∀ first second : SearchDir,
      fs.existsSync (env.join [first.dir, tag ++ ".md".toList]) ≠ .ok true →
      fs.existsSync (env.join [second.dir, tag ++ ".md".toList]) = .ok true →
      resolveTag env.join fs tag [first, second]
        = some { scope := second.scope,
                 filePath := env.join [second.dir, tag ++ ".md".toList] }) ∧
    resolveTag sampleEnv.join sampleFS "mine".toList (HotContext.searchDirs sampleEnv)
      = some { scope := "PERSONAL".toList,
               filePath := "/home/u/.claude/hotcontext/mine.md".toList } := by
  refine ⟨resolveTag_eq_none_iff env fs tag searchDirs,
    fun r => resolveTag_eq_some_iff env fs tag searchDirs r, ?_, by decide⟩
  intro first second h1 h2
  exact (resolveTag_eq_some_iff env fs tag [first, second] _).2
    ⟨[first], second, [], rfl, by simpa [bundlePath] using h1, h2, rfl⟩

/-- C5: `getSearchDirs` lists PROJECT (under the working directory) and then
PERSONAL (under the home directory); a tag of the prompt whose file exists and
is readable in the PROJECT directory gets exactly one section, which holds
the stripped and trimmed content of the PROJECT file, whatever the PERSONAL
directory holds. -/
theorem project_scope_wins (env : Env) (fs : FS) (prompt tag rawP : Str)
    (ht : tag ∈ parseTags prompt)
    (hex : fs.existsSync (projectPath env tag) = .ok true)
    (hread : fs.readFileSync (projectPath env tag) = .ok rawP) :
    getSearchDirs (hostOf env) = .ok
      [{ scope := "PROJECT".toList,
         dir := env.join [env.cwd, ".claude".toList, "hotcontext".toList] },
       { scope := "PERSONAL".toList,
         dir := env.join [env.homedir, ".claude".toList, "hotcontext".toList] }] ∧
    runPass (hostOf env) fs (parseTags prompt) = .ok (resolveAll env fs (parseTags prompt)) ∧
    (resolveAll env fs (parseTags prompt)).1.filter (fun r => r.tag = tag)
      = [{ tag := tag, content := trim (stripFrontmatter rawP), scope := "PROJECT".toList }] ∧
    runPrompt env fs prompt
      = formatOutput (resolveAll env fs (parseTags prompt)).1
          (resolveAll env fs (parseTags prompt)).2 ∧
    (∀ rawQ, fs.readFileSync (personalPath env tag) = .ok rawQ →
      trim (stripFrontmatter rawQ) ≠ trim (stripFrontmatter rawP) →
      ∀ r ∈ (resolveAll env fs (parseTags prompt)).1, r.tag = tag →
        r.content ≠ trim (stripFrontmatter rawQ)) := by
  have hsec : sectionOf env fs tag
      = some { tag := tag, content := trim (stripFrontmatter rawP),
               scope := "PROJECT".toList } := by
    unfold sectionOf
    rw [resolveTag_project env fs tag hex]
    simp only [loadBundle, hread]
  have hfilter : (resolveAll env fs (parseTags prompt)).1.filter (fun r => r.tag = tag)
      = [{ tag := tag, content := trim (stripFrontmatter rawP), scope := "PROJECT".toList }] := by
    rw [resolveAll_eq]
    simp only
    have hnd : (parseTags prompt).Nodup := by
      rw [parseTags_eq]
      exact nodup_firstOccurrences _
    rw [filter_sections env fs _ hnd tag ht, hsec]
    rfl
  refine ⟨getSearchDirs_hostOf env, runPass_hostOf env fs _, hfilter,
    runPrompt_eq env fs prompt, ?_⟩
  intro rawQ _ hne r hr hrt
  have hmem : r ∈ (resolveAll env fs (parseTags prompt)).1.filter (fun r => r.tag = tag) :=
    List.mem_filter.2 ⟨hr, by simpa using hrt⟩
  rw [hfilter, List.mem_singleton] at hmem
  rw [hmem]
  exact fun h => hne h.symm

/-- C5 at the sample filesystem, where both scopes hold a readable `simple.md`. -/
theorem project_scope_wins_witness :
    sampleFS.readFileSync (personalPath sampleEnv "simple".toList) = .ok "# Personal\n".toList ∧
    (resolveAll sampleEnv sampleFS (parseTags "+simple test".toList)).1.filter
        (fun r => r.tag = "simple".toList)
      = [{ tag := "simple".toList, content := "# Body".toList, scope := "PROJECT".toList }] :=
  ⟨rfl, (project_scope_wins sampleEnv sampleFS "+simple test".toList "simple".toList
    "---\nname: simple\n---\n# Body\n".toList (by decide) rfl rfl).2.2.1⟩

/-- C6: a tag of the prompt whose file exists in the PROJECT directory but cannot
be read resolves to the PROJECT file all the same; its turn of the loop
pushes the warning `[hotcontext] Error loading +<tag>: <message>` and no
section, so the pass records that warning and no section for the tag,
whatever the PERSONAL directory holds. -/
theorem load_error_no_fallback (env : Env) (fs : FS) (prompt tag msg : Str)
    (ht : tag ∈ parseTags prompt)
    (hex : fs.existsSync (projectPath env tag) = .ok true)
    (hread : fs.readFileSync (projectPath env tag) = .error msg) :
    resolveTag env.join fs tag (searchDirs env)
      = some { scope := "PROJECT".toList, filePath := projectPath env tag } ∧
    (∀ st, processTag env.join fs (searchDirs env) st tag
      = (st.1, st.2 ++ ["[hotcontext] Error loading +".toList ++ tag ++ ": ".toList ++ msg])) ∧
    "[hotcontext] Error loading +".toList ++ tag ++ ": ".toList ++ msg
      ∈ (resolveAll env fs (parseTags prompt)).2 ∧
    (∀ r ∈ (resolveAll env fs (parseTags prompt)).1, r.tag ≠ tag) ∧
    runPass (hostOf env) fs (parseTags prompt) = .ok (resolveAll env fs (parseTags prompt)) ∧
    runPrompt env fs prompt
      = formatOutput (resolveAll env fs (parseTags prompt)).1
          (resolveAll env fs (parseTags prompt)).2 := by
  have hres := resolveTag_project env fs tag hex
  have hsec : sectionOf env fs tag = none := by
    unfold sectionOf
    rw [hres]
    simp only [loadBundle, hread]
  have hwarn : warningOf env fs tag = some (loadErrorWarning tag msg) := by
    unfold warningOf
    rw [hres]
    simp only [loadBundle, hread]
  refine ⟨hres, ?_, ?_, ?_, runPass_hostOf env fs _, runPrompt_eq env fs prompt⟩
  · intro st
    unfold processTag
    rw [hres]
    simp only [loadBundle, hread]
    rfl
  · rw [resolveAll_eq]
    exact List.mem_filterMap.2 ⟨tag, ht, hwarn⟩
  · intro r hr hrt
    have hnd : (parseTags prompt).Nodup := by
      rw [parseTags_eq]
      exact nodup_firstOccurrences _
    have hmem : r ∈ (resolveAll env fs (parseTags prompt)).1.filter (fun r => r.tag = tag) :=
      List.mem_filter.2 ⟨hr, by simpa using hrt⟩
    rw [resolveAll_eq] at hmem
    simp only at hmem
    rw [filter_sections env fs _ hnd tag ht, hsec] at hmem
    simp at hmem

/-- C6 at a filesystem whose PROJECT `simple.md` is unreadable while the PERSONAL
one is readable. -/
theorem load_error_no_fallback_witness :
    unreadableFS.readFileSync (personalPath sampleEnv "simple".toList)
      = .ok "# Personal\n".toList ∧
    "[hotcontext] Error loading +simple: EACCES: permission denied".toList
      ∈ (resolveAll sampleEnv unreadableFS (parseTags "+simple test".toList)).2 ∧
    (resolveAll sampleEnv unreadableFS (parseTags "+simple test".toList)).2
      = ["[hotcontext] Error loading +simple: EACCES: permission denied".toList] ∧
    ∀ r ∈ (resolveAll sampleEnv unreadableFS (parseTags "+simple test".toList)).1,
      r.tag ≠ "simple".toList :=
  have h := load_error_no_fallback sampleEnv unreadableFS "+simple test".toList
    "simple".toList "EACCES: permission denied".toList (by decide) rfl rfl
  ⟨rfl, h.2.2.1, by decide, h.2.2.2.1⟩

/-! ## The front-matter pattern -/

theorem lit_eq_some {α : Type} (c : Char) (k : Cont α) (s : Str) (x : α) :
    lit c k s = some x ↔ ∃ t, s = c :: t ∧ k t = some x := by
  cases s with
  | nil => simp [lit]
  | cons d t =>
    by_cases hd : d = c
    · simp [lit, hd]
    · simp [lit, hd]

theorem optG_eq_some {α : Type} (c : Char) (k : Cont α) (s : Str) (x : α)
    (h : optG c k s = some x) : (∃ t, s = c :: t ∧ k t = some x) ∨ k s = some x := by
  unfold optG at h
  cases hl : lit c k s with
  | none =>
    rw [hl] at h
    exact Or.inr h
  | some y =>
    rw [hl] at h
    have hy : y = x := Option.some.inj h
    rw [hy] at hl
    exact Or.inl ((lit_eq_some c k s x).1 hl)

theorem optG_total {α : Type} (c : Char) (k : Cont α) (f : Str → α)
    (hk : ∀ s, k s = some (f s)) (s : Str) : optG c k s = some (f (skipOpt c s)) := by
  cases s with
  | nil => simp [optG, lit, hk, skipOpt, Option.orElse]
  | cons d t =>
    by_cases hd : d = c
    · simp [optG, lit, hk, skipOpt, hd, Option.orElse]
    · simp [optG, lit, hk, skipOpt, hd, Option.orElse]

theorem anyStarG_eoi {α : Type} (f : Str → α) (acc s : Str) :
    anyStarG (fun g2 => eoi (f g2)) acc s = some (f (acc ++ s)) := by
  induction s generalizing acc with
  | nil => simp [anyStarG, eoi]
  | cons c t ih => simp [anyStarG, ih, Option.orElse]

/-- After the closing hyphens the pattern always matches: it consumes an optional
`\r`, then an optional `\n`, and captures the rest. -/
theorem frontmatterTail_eq (g1 s : Str) :
    frontmatterTail g1 s = some (g1, skipOpt '\n' (skipOpt '\r' s)) := by
  unfold frontmatterTail
  refine optG_total '\r' _ (fun s => (g1, skipOpt '\n' s)) ?_ s
  intro s1
  refine optG_total '\n' _ (fun s => (g1, s)) ?_ s1
  intro s2
  rw [anyStarG_eoi]
  rfl

theorem frontmatterClose_lf (g1 rest : Str) :
    frontmatterClose g1 ('\n' :: '-' :: '-' :: '-' :: rest)
      = some (g1, skipOpt '\n' (skipOpt '\r' rest)) := by
  simp [frontmatterClose, optG, lit, frontmatterTail_eq, Option.orElse]

theorem frontmatterClose_crlf (g1 rest : Str) :
    frontmatterClose g1 ('\r' :: '\n' :: '-' :: '-' :: '-' :: rest)
      = some (g1, skipOpt '\n' (skipOpt '\r' rest)) := by
  simp [frontmatterClose, optG, lit, frontmatterTail_eq, Option.orElse]

theorem closeBody_eq_some (g1 s : Str) (x : Str × Str)
    (h : lit '\n' (lit '-' (lit '-' (lit '-' (frontmatterTail g1)))) s = some x) :
    ∃ rest, s = '\n' :: '-' :: '-' :: '-' :: rest ∧
      x = (g1, skipOpt '\n' (skipOpt '\r' rest)) := by
  obtain ⟨t1, h1, h⟩ := (lit_eq_some _ _ _ _).1 h
  obtain ⟨t2, h2, h⟩ := (lit_eq_some _ _ _ _).1 h
  obtain ⟨t3, h3, h⟩ := (lit_eq_some _ _ _ _).1 h
  obtain ⟨t4, h4, h⟩ := (lit_eq_some _ _ _ _).1 h
  rw [frontmatterTail_eq] at h
  refine ⟨t4, by rw [h1, h2, h3, h4], (Option.some.inj h).symm⟩

/-- Where the closing part of the pattern matches: at a line break (`\n` or
`\r\n`) followed by three hyphens. -/
theorem frontmatterClose_eq_some (g1 s : Str) (x : Str × Str)
    (h : frontmatterClose g1 s = some x) :
    ∃ rest, (s = '\r' :: '\n' :: '-' :: '-' :: '-' :: rest ∨
        s = '\n' :: '-' :: '-' :: '-' :: rest) ∧
      x = (g1, skipOpt '\n' (skipOpt '\r' rest)) := by
  unfold frontmatterClose at h
  rcases optG_eq_some _ _ _ _ h with ⟨t, ht, h2⟩ | h2
  · obtain ⟨rest, hr, hx⟩ := closeBody_eq_some g1 t x h2
    exact ⟨rest, Or.inl (by rw [ht, hr]), hx⟩
  · obtain ⟨rest, hr, hx⟩ := closeBody_eq_some g1 s x h2
    exact ⟨rest, Or.inr hr, hx⟩

/-- A block without `\n---`, followed by a character other than a hyphen, does not
begin the closing delimiter. -/
theorem no_early_close (fm : Str) (hne : fm ≠ [])
    (hfm : ¬ ['\n', '-', '-', '-'] <:+: fm) (x : Char) (xs r : Str) (hx : x ≠ '-') :
    fm ++ x :: xs ≠ '\n' :: '-' :: '-' :: '-' :: r := by
  intro h
  match fm, hne, hfm, h with
  | [], hne, _, _ => exact hne rfl
  | [a], _, _, h =>
    simp only [List.cons_append, List.nil_append, List.cons.injEq] at h
    exact hx h.2.1
  | [a, b], _, _, h =>
    simp only [List.cons_append, List.nil_append, List.cons.injEq] at h
    exact hx h.2.2.1
  | [a, b, c], _, _, h =>
    simp only [List.cons_append, List.nil_append, List.cons.injEq] at h
    exact hx h.2.2.2.1
  | a :: b :: c :: d :: t, _, hfm, h =>
    simp only [List.cons_append, List.cons.injEq] at h
    obtain ⟨ha, hb, hc, hd, _⟩ := h
    apply hfm
    rw [ha, hb, hc, hd]
    exact ⟨[], t, rfl⟩

/-- The lazy group stops at the line break that ends a block without `\n---`. -/
theorem anyStarL_close (fm : Str) (hfm : ¬ ['\n', '-', '-', '-'] <:+: fm) (e2 rest : Str)
    (he2 : e2 = ['\n'] ∨ e2 = ['\r', '\n']) (acc : Str) :
    ∃ g1, anyStarL frontmatterClose acc (fm ++ (e2 ++ '-' :: '-' :: '-' :: rest))
      = some (g1, skipOpt '\n' (skipOpt '\r' rest)) := by
  induction fm generalizing acc with
  | nil =>
    rcases he2 with he | he
    · subst he
      refine ⟨acc, ?_⟩
      simp [anyStarL, frontmatterClose_lf, Option.orElse]
    · subst he
      refine ⟨acc, ?_⟩
      simp [anyStarL, frontmatterClose_crlf, Option.orElse]
  | cons c fm1 ih =>
    have hfm1 : ¬ ['\n', '-', '-', '-'] <:+: fm1 := by
      intro hin
      apply hfm
      obtain ⟨u, v, huv⟩ := hin
      exact ⟨c :: u, v, by rw [← huv]; simp⟩
    have hhead : ∃ x xs, e2 ++ '-' :: '-' :: '-' :: rest = x :: xs ∧ x ≠ '-' := by
      rcases he2 with he | he
      · subst he
        exact ⟨'\n', _, rfl, by decide⟩
      · subst he
        exact ⟨'\r', _, rfl, by decide⟩
    obtain ⟨x, xs, hxs, hx⟩ := hhead
    rw [List.cons_append, anyStarL]
    cases hk : frontmatterClose acc (c :: (fm1 ++ (e2 ++ '-' :: '-' :: '-' :: rest))) with
    | none =>
      simp only [Option.orElse]
      exact ih hfm1 (acc ++ [c])
    | some y =>
      simp only [Option.orElse]
      obtain ⟨r1, hs, hy⟩ := frontmatterClose_eq_some _ _ _ hk
      rcases hs with hs | hs
      · simp only [List.cons.injEq] at hs
        obtain ⟨_, hs⟩ := hs
        by_cases hnil : fm1 = []
        · subst hnil
          rcases he2 with he | he
          · subst he
            simp only [List.nil_append, List.cons_append, List.cons.injEq, true_and] at hs
            refine ⟨acc, ?_⟩
            rw [hy, hs]
          · subst he
            simp only [List.nil_append, List.cons_append, List.cons.injEq] at hs
            exact absurd hs.1 (by decide)
        · rw [hxs] at hs
          exact absurd hs (no_early_close fm1 hnil hfm1 x xs r1 hx)
      · rw [hxs, ← List.cons_append] at hs
        exact absurd hs (no_early_close (c :: fm1) (List.cons_ne_nil _ _) hfm x xs r1 hx)

theorem frontmatterRe_open_lf (t : Str) :
    frontmatterRe ('-' :: '-' :: '-' :: '\n' :: t) = anyStarL frontmatterClose [] t := by
  simp [frontmatterRe, optG, lit, Option.orElse]

theorem frontmatterRe_open_crlf (t : Str) :
    frontmatterRe ('-' :: '-' :: '-' :: '\r' :: '\n' :: t) = anyStarL frontmatterClose [] t := by
  simp only [frontmatterRe, optG, lit, if_true]
  cases anyStarL frontmatterClose [] t with
  | none => simp [Option.orElse]
  | some y => simp [Option.orElse]

/-- The pattern matches only a content that starts with three hyphens and a line
break. -/
theorem frontmatterRe_eq_some (s : Str) (x : Str × Str) (h : frontmatterRe s = some x) :
    (∃ t, s = '-' :: '-' :: '-' :: '\n' :: t) ∨
      ∃ t, s = '-' :: '-' :: '-' :: '\r' :: '\n' :: t := by
  unfold frontmatterRe at h
  obtain ⟨t1, h1, h⟩ := (lit_eq_some _ _ _ _).1 h
  obtain ⟨t2, h2, h⟩ := (lit_eq_some _ _ _ _).1 h
  obtain ⟨t3, h3, h⟩ := (lit_eq_some _ _ _ _).1 h
  rcases optG_eq_some _ _ _ _ h with ⟨t4, h4, h5⟩ | h5
  · obtain ⟨t5, h6, _⟩ := (lit_eq_some _ _ _ _).1 h5
    exact Or.inr ⟨t5, by rw [h1, h2, h3, h4, h6]⟩
  · obtain ⟨t5, h6, _⟩ := (lit_eq_some _ _ _ _).1 h5
    exact Or.inl ⟨t5, by rw [h1, h2, h3, h6]⟩

/-- Stripping a block without `\n---` between an opening and a closing delimiter,
whatever the line breaks: what is left is the text after the closing hyphens,
less one line break. -/
theorem stripFrontmatter_block (e1 e2 fm rest : Str)
    (he1 : e1 = ['\n'] ∨ e1 = ['\r', '\n']) (he2 : e2 = ['\n'] ∨ e2 = ['\r', '\n'])
    (hfm : ¬ ['\n', '-', '-', '-'] <:+: fm) :
    stripFrontmatter ('-' :: '-' :: '-' :: (e1 ++ (fm ++ (e2 ++ '-' :: '-' :: '-' :: rest))))
      = skipOpt '\n' (skipOpt '\r' rest) := by
  obtain ⟨g1, hg⟩ := anyStarL_close fm hfm e2 rest he2 []
  unfold stripFrontmatter
  rcases he1 with he | he
  · subst he
    simp only [List.cons_append, List.nil_append]
    rw [frontmatterRe_open_lf, hg]
  · subst he
    simp only [List.cons_append, List.nil_append]
    rw [frontmatterRe_open_crlf, hg]

/-! ## Trimming -/

theorem rdropWhile_split (p : Char → Bool) (l : Str) :
    ∃ r, l = l.rdropWhile p ++ r ∧ ∀ c ∈ r, p c = true := by
  induction l using List.reverseRecOn with
  | nil => exact ⟨[], by simp, by simp⟩
  | append_singleton xs x ih =>
    by_cases hx : p x = true
    · obtain ⟨r, hr, hall⟩ := ih
      refine ⟨r ++ [x], ?_, ?_⟩
      · rw [List.rdropWhile_concat_pos _ _ _ hx, ← List.append_assoc, ← hr]
      · intro c hc
        rcases List.mem_append.1 hc with h | h
        · exact hall c h
        · rw [List.mem_singleton.1 h]
          exact hx
    · refine ⟨[], ?_, by simp⟩
      rw [List.rdropWhile_concat_neg _ _ _ hx]
      simp

/-- What `trim` does: it removes a run of whitespace at each end, and what is left
neither starts nor ends with whitespace. -/
theorem trim_spec (s : Str) :
    ∃ l r, s = l ++ trim s ++ r ∧ (∀ c ∈ l, isWhiteSpace c = true) ∧
      (∀ c ∈ r, isWhiteSpace c = true) ∧
      (∀ c, (trim s).head? = some c → isWhiteSpace c = false) ∧
      (∀ c, (trim s).getLast? = some c → isWhiteSpace c = false) := by
  obtain ⟨r, hr, hall⟩ := rdropWhile_split isWhiteSpace (s.dropWhile isWhiteSpace)
  refine ⟨s.takeWhile isWhiteSpace, r, ?_, ?_, hall, ?_, ?_⟩
  · unfold trim
    rw [List.append_assoc, ← hr, List.takeWhile_append_dropWhile]
  · intro c hc
    exact mem_takeWhile_true _ _ _ hc
  · intro c hc
    unfold trim at hc
    apply dropWhile_head_false isWhiteSpace s c
    rw [hr]
    cases ht : (s.dropWhile isWhiteSpace).rdropWhile isWhiteSpace with
    | nil => simp [ht] at hc
    | cons a t =>
      rw [ht] at hc
      simpa using hc
  · intro c hc
    unfold trim at hc
    by_cases hnil : (s.dropWhile isWhiteSpace).rdropWhile isWhiteSpace = []
    · simp [hnil] at hc
    · have hlast := List.rdropWhile_last_not isWhiteSpace (s.dropWhile isWhiteSpace) hnil
      rw [List.getLast?_eq_getLast _ hnil] at hc
      rw [← Option.some.inj hc]
      simpa using hlast

/-! ## Bundle loading: the claims -/

/-- C7: for a block `fm` without `\n---`, stripping `"---\n" + fm + "\n---\n" + body`
gives `body`, whatever `body` holds; and loading a file that holds
`"---\nname: simple\n---\n# Body\n"` gives `"# Body"`. -/
theorem stripFrontmatter_delimited (fm body : Str) (hfm : ¬ "\n---".toList <:+: fm) :
    stripFrontmatter ("---\n".toList ++ fm ++ "\n---\n".toList ++ body) = body ∧
    (∀ (fs : FS) (filePath : Str),
      fs.readFileSync filePath = .ok "---\nname: simple\n---\n# Body\n".toList →
      loadBundle fs filePath = .ok "# Body".toList) := by
  constructor
  · have h := stripFrontmatter_block ['\n'] ['\n'] fm ('\n' :: body) (Or.inl rfl) (Or.inl rfl) hfm
    have hshape : "---\n".toList ++ fm ++ "\n---\n".toList ++ body
        = '-' :: '-' :: '-' :: (['\n'] ++ (fm ++ (['\n'] ++ '-' :: '-' :: '-' :: '\n' :: body))) := by
      simp [String.toList]
    rw [hshape, h]
    simp [skipOpt]
  · intro fs filePath hread
    unfold loadBundle
    rw [hread]
    rfl

/-- C7 at the block `name: simple` and the body `# Body` with a later `---` line. -/
theorem stripFrontmatter_delimited_witness :
    stripFrontmatter
        ("---\n".toList ++ "name: simple".toList ++ "\n---\n".toList ++ "# Body\n---\nmore\n".toList)
      = "# Body\n---\nmore\n".toList :=
  (stripFrontmatter_delimited "name: simple".toList "# Body\n---\nmore\n".toList
    (by decide)).1

/-- C8 (the code at a malformed closing line): the closing line `---oops` is not
a line of exactly three hyphens, yet the block is stripped and the rest of
that line is kept as body. -/
theorem stripFrontmatter_malformed_close :
    stripFrontmatter "---\ntitle: x\n---oops\nbody\n".toList = "oops\nbody\n".toList ∧
    stripFrontmatter "---\ntitle: x\n----\nbody\n".toList = "-\nbody\n".toList := by
  constructor <;> decide

/-- C9: a file content that does not start with `---` and a line break (`\n` or
`\r\n`) is loaded as the whole content trimmed: stripping leaves it unchanged,
and the trim removes whitespace at the two ends only. -/
theorem loadBundle_no_frontmatter (fs : FS) (filePath content : Str)
    (hread : fs.readFileSync filePath = .ok content)
    (h1 : ¬ "---\n".toList <+: content) (h2 : ¬ "---\r\n".toList <+: content) :
    stripFrontmatter content = content ∧
    loadBundle fs filePath = .ok (trim content) ∧
    ∃ l r, content = l ++ trim content ++ r ∧ (∀ c ∈ l, isWhiteSpace c = true) ∧
      (∀ c ∈ r, isWhiteSpace c = true) ∧
      (∀ c, (trim content).head? = some c → isWhiteSpace c = false) ∧
      (∀ c, (trim content).getLast? = some c → isWhiteSpace c = false) := by
  have hs : stripFrontmatter content = content := by
    unfold stripFrontmatter
    cases hm : frontmatterRe content with
    | none => rfl
    | some x =>
      rcases frontmatterRe_eq_some content x hm with ⟨t, ht⟩ | ⟨t, ht⟩
      · exact absurd ⟨t, by rw [ht]; rfl⟩ h1
      · exact absurd ⟨t, by rw [ht]; rfl⟩ h2
  refine ⟨hs, ?_, trim_spec content⟩
  unfold loadBundle
  simp only [hread, hs]

/-- C9 at a file without front matter. -/
theorem loadBundle_no_frontmatter_witness :
    loadBundle sampleFS "/home/u/.claude/hotcontext/mine.md".toList = .ok "# Mine".toList :=
  (loadBundle_no_frontmatter sampleFS "/home/u/.claude/hotcontext/mine.md".toList
    "# Mine\n".toList rfl (by decide) (by decide)).2.1

/-! ## Output formatting: the claims -/

theorem foldl_push_sections (resolved : List Resolved) (parts : List Str) :
    resolved.foldl (fun parts r => parts ++ [header r.tag] ++ [r.content] ++ [[]]) parts
      = parts ++ (resolved.map fun r => [header r.tag, r.content, []]).flatten := by
  induction resolved generalizing parts with
  | nil => simp
  | cons r rs ih =>
    rw [List.foldl_cons, ih]
    simp

theorem foldl_push_warnings (warnings : List Str) (parts : List Str) :
    warnings.foldl (fun parts w => parts ++ [w]) parts = parts ++ warnings := by
  induction warnings generalizing parts with
  | nil => simp
  | cons w ws ih =>
    rw [List.foldl_cons, ih]
    simp

/-- The lines `formatOutput` joins. -/
theorem formatOutput_eq (resolved : List Resolved) (warnings : List Str) :
    formatOutput resolved warnings
      = trim (join ['\n']
          (outputLines (resolved.map fun r => (r.tag, r.content)) warnings)) := by
  unfold formatOutput outputLines
  simp only
  rw [foldl_push_sections, foldl_push_warnings, List.nil_append, List.map_map]
  rfl

/-- C10: `formatOutput(resolved, warnings)` is the trimmed join, with newlines, of
the lines `--- hotcontext: <tag> ---`, content and the empty line of each pair
in order, followed by the warnings in order; the result neither starts nor
ends with whitespace, and `formatOutput([], [])` is the empty string. -/
theorem formatOutput_spec (resolved : List Resolved) (warnings : List Str) :
    formatOutput resolved warnings
      = trim (List.intercalate ['\n']
          ((resolved.map fun r =>
              ["--- hotcontext: ".toList ++ r.tag ++ " ---".toList, r.content, []]).flatten
            ++ warnings)) ∧
    (∀ c, (formatOutput resolved warnings).head? = some c → isWhiteSpace c = false) ∧
    (∀ c, (formatOutput resolved warnings).getLast? = some c → isWhiteSpace c = false) ∧
    formatOutput [] [] = [] := by
  have heq := formatOutput_eq resolved warnings
  refine ⟨?_, ?_, ?_, formatOutput_nil⟩
  · rw [heq]
    unfold outputLines join
    rw [List.map_map]
    rfl
  · rw [heq]
    obtain ⟨_, _, _, _, _, hhead, _⟩ := trim_spec
      (join ['\n'] (outputLines (resolved.map fun r => (r.tag, r.content)) warnings))
    exact hhead
  · rw [heq]
    obtain ⟨_, _, _, _, _, _, hlast⟩ := trim_spec
      (join ['\n'] (outputLines (resolved.map fun r => (r.tag, r.content)) warnings))
    exact hlast

/-! ## The entry point: prompts without tags and malformed input -/

theorem parseTags_nil_of_plain (prompt : Str)
    (h : ∀ pre c post, prompt = pre ++ '+' :: c :: post → isTagChar c = false) :
    parseTags prompt = [] := by
  by_contra hne
  obtain ⟨tag, htag⟩ := List.exists_mem_of_ne_nil _ hne
  obtain ⟨pre, post, h1, h2, h3, _⟩ := (mem_parseTags prompt tag).1 htag
  cases tag with
  | nil => exact h2 rfl
  | cons c u =>
    have := h pre c (u ++ post) (by rw [h1]; simp)
    rw [h3 c (List.mem_cons_self _ _)] at this
    simp at this

theorem runPrompt_of_no_tags (env : Env) (fs : FS) (prompt : Str)
    (h : parseTags prompt = []) : runPrompt env fs prompt = [] := by
  unfold runPrompt
  simp [h]

theorem getPrompt_absent (rt : Runtime) (fields : List (Str × Json))
    (h : ∀ kv ∈ fields, kv.1 ≠ "prompt".toList) : getPrompt rt (.obj fields) = .ok none := by
  unfold getPrompt
  have : (fields.reverse.find? fun kv => kv.1 = "prompt".toList) = none := by
    rw [List.find?_eq_none]
    intro kv hkv
    simpa using h kv (List.mem_reverse.1 hkv)
  simp only [this]
  rfl

/-- The run of `main` on a string prompt, from `parseTags` on. -/
theorem main_string_prompt (rt : Runtime) (host : Host) (fs : FS) (stdin : Str) (input : Json)
    (prompt : Str) (hp : rt.parse stdin = .ok input)
    (hg : getPrompt rt input = .ok (some (.str prompt))) :
    main rt host fs stdin
      = if (parseTags prompt).length = 0 then { stdout := [], stderr := [], exitCode := 0 }
        else
          match runPass host fs (parseTags prompt) with
          | .error msg => resolverError msg
          | .ok rw =>
            { stdout := if formatOutput rw.1 rw.2 ≠ [] then formatOutput rw.1 rw.2 else [],
              stderr := [], exitCode := 0 } := by
  unfold main
  simp only [hp, hg]
  cases prompt with
  | nil => simp [promptOrEmpty, truthy]
  | cons c t => simp [promptOrEmpty, truthy]

/-- Without tags `main` ends before it looks at the host or the filesystem. -/
theorem main_no_tags (rt : Runtime) (host : Host) (fs : FS) (stdin : Str) (input : Json)
    (prompt : Str) (hp : rt.parse stdin = .ok input)
    (hg : getPrompt rt input = .ok (some (.str prompt))) (ht : parseTags prompt = []) :
    main rt host fs stdin = { stdout := [], stderr := [], exitCode := 0 } := by
  rw [main_string_prompt rt host fs stdin input prompt hp hg, ht]
  rfl

/-- With tags, when `process.cwd()` and `os.homedir()` return, `main` writes what
`runPrompt` gives for the returned values. -/
theorem main_run_ok (rt : Runtime) (host : Host) (fs : FS) (stdin : Str) (input : Json)
    (prompt c h : Str) (hp : rt.parse stdin = .ok input)
    (hg : getPrompt rt input = .ok (some (.str prompt)))
    (hc : host.cwd = .ok c) (hh : host.homedir = .ok h) :
    main rt host fs stdin
      = { stdout := runPrompt { cwd := c, homedir := h, join := host.join } fs prompt,
          stderr := [], exitCode := 0 } := by
  rw [main_string_prompt rt host fs stdin input prompt hp hg, runPass_ok host fs _ c h hc hh]
  unfold runPrompt
  by_cases ht : (parseTags prompt).length = 0
  · simp [ht]
  · simp [ht]

/-- With tags, an error thrown by `getSearchDirs()` ends in the `catch` block. -/
theorem main_dirs_error (rt : Runtime) (host : Host) (fs : FS) (stdin : Str) (input : Json)
    (prompt msg : Str) (hp : rt.parse stdin = .ok input)
    (hg : getPrompt rt input = .ok (some (.str prompt))) (ht : parseTags prompt ≠ [])
    (he : getSearchDirs host = .error msg) :
    main rt host fs stdin = resolverError msg := by
  rw [main_string_prompt rt host fs stdin input prompt hp hg, runPass_error host fs _ msg he]
  have : (parseTags prompt).length ≠ 0 := fun h0 => ht (List.length_eq_zero.1 h0)
  simp [this]

/-- On the host where both calls return the values of `env`, `main` writes what
`runPrompt` gives for `env`. -/
theorem main_hostOf (rt : Runtime) (env : Env) (fs : FS) (stdin : Str) (input : Json)
    (prompt : Str) (hp : rt.parse stdin = .ok input)
    (hg : getPrompt rt input = .ok (some (.str prompt))) :
    main rt (hostOf env) fs stdin
      = { stdout := runPrompt env fs prompt, stderr := [], exitCode := 0 } :=
  main_run_ok rt (hostOf env) fs stdin input prompt env.cwd env.homedir hp hg rfl rfl

/-- C11: a prompt in which no `+` is immediately followed by a tag character, and an
input object without a `prompt` field, make the resolver write the empty
string to standard output (and nothing to standard error), whatever the
host and the filesystem hold. -/
theorem main_no_tags_no_output (rt : Runtime) (host : Host) (env : Env) (fs : FS) :
    (∀ prompt : Str,
      (∀ pre c post, prompt = pre ++ '+' :: c :: post → isTagChar c = false) →
      runPrompt env fs prompt = []) ∧
    (∀ (stdin : Str) (input : Json) (prompt : Str),
      rt.parse stdin = .ok input → getPrompt rt input = .ok (some (.str prompt)) →
      (∀ pre c post, prompt = pre ++ '+' :: c :: post → isTagChar c = false) →
      main rt host fs stdin = { stdout := [], stderr := [], exitCode := 0 }) ∧
    (∀ (stdin : Str) (fields : List (Str × Json)),
      rt.parse stdin = .ok (.obj fields) → (∀ kv ∈ fields, kv.1 ≠ "prompt".toList) →
      main rt host fs stdin = { stdout := [], stderr := [], exitCode := 0 }) ∧
    main sampleRuntime host fs "\x7b\x7d".toList = { stdout := [], stderr := [], exitCode := 0 } ∧
    runPrompt env fs "just a regular prompt with no tags".toList = [] := by
  have hempty : ∀ (r : Runtime) (stdin : Str) (fields : List (Str × Json)),
      r.parse stdin = .ok (.obj fields) → (∀ kv ∈ fields, kv.1 ≠ "prompt".toList) →
      main r host fs stdin = { stdout := [], stderr := [], exitCode := 0 } := by
    intro r stdin fields hp hf
    unfold main
    simp only [hp, getPrompt_absent r fields hf, promptOrEmpty]
    have h0 : parseTags [] = [] := by decide
    simp [h0]
  refine ⟨?_, ?_, ?_, ?_, ?_⟩
  · intro prompt h
    exact runPrompt_of_no_tags env fs prompt (parseTags_nil_of_plain prompt h)
  · intro stdin input prompt hp hg h
    exact main_no_tags rt host fs stdin input prompt hp hg (parseTags_nil_of_plain prompt h)
  · intro stdin fields hp hf
    exact hempty rt stdin fields hp hf
  · exact hempty sampleRuntime _ [] rfl (by simp)
  · exact runPrompt_of_no_tags env fs _ (by decide)

/-- C15: on an input text that `JSON.parse` rejects with message `msg`, the resolver
writes nothing to standard output, writes the diagnostic
`[hotcontext] Resolver error: <msg>` and a newline to standard error, and ends
with exit code 0. -/
theorem main_invalid_json (rt : Runtime) (host : Host) (fs : FS) (stdin msg : Str)
    (h : rt.parse stdin = .error msg) :
    main rt host fs stdin
      = { stdout := [], stderr := "[hotcontext] Resolver error: ".toList ++ msg ++ ['\n'],
          exitCode := 0 } ∧
    "[hotcontext] Resolver error: ".toList <+: (main rt host fs stdin).stderr := by
  have hm : main rt host fs stdin = resolverError msg := by
    unfold main
    simp only [h]
  rw [hm]
  refine ⟨rfl, ?_⟩
  unfold resolverError
  exact ⟨msg ++ ['\n'], by simp⟩

/-- C15 at an input that is not JSON. -/
theorem main_invalid_json_witness :
    main sampleRuntime (hostOf sampleEnv) sampleFS "not json".toList
      = { stdout := [],
          stderr := "[hotcontext] Resolver error: Unexpected token\n".toList,
          exitCode := 0 } :=
  (main_invalid_json sampleRuntime (hostOf sampleEnv) sampleFS "not json".toList
    "Unexpected token".toList rfl).1

/-! ## Order and content of sections and warnings -/

theorem map_tag_sections (env : Env) (fs : FS) (tags : List Str) :
    (tags.filterMap (sectionOf env fs)).map (fun r => r.tag)
      = tags.filter fun t => (sectionOf env fs t).isSome := by
  induction tags with
  | nil => rfl
  | cons t ts ih =>
    rw [List.filterMap_cons]
    cases hs : sectionOf env fs t with
    | none => simp [hs, ih]
    | some r => simp [hs, ih, sectionOf_tag env fs t r hs]

theorem warningOf_cases (env : Env) (fs : FS) (t w : Str) (h : warningOf env fs t = some w) :
    w = notFoundWarning t ∨ ∃ msg, w = loadErrorWarning t msg := by
  unfold warningOf at h
  cases hr : resolveTag env.join fs t (searchDirs env) with
  | none =>
    simp only [hr, Option.some.injEq] at h
    exact Or.inl h.symm
  | some result =>
    cases hl : loadBundle fs result.filePath with
    | ok content => simp [hr, hl] at h
    | error msg =>
      simp only [hr, hl, Option.some.injEq] at h
      exact Or.inr ⟨msg, h.symm⟩

theorem forall2_warnings (env : Env) (fs : FS) (tags : List Str) :
    List.Forall₂ (fun t w => w = notFoundWarning t ∨ ∃ msg, w = loadErrorWarning t msg)
      (tags.filter fun t => (warningOf env fs t).isSome) (tags.filterMap (warningOf env fs)) := by
  induction tags with
  | nil => exact List.Forall₂.nil
  | cons t ts ih =>
    rw [List.filterMap_cons]
    cases hw : warningOf env fs t with
    | none => simpa [hw] using ih
    | some w =>
      simp only [hw, List.filter_cons, Option.isSome_some, if_true]
      exact List.Forall₂.cons (warningOf_cases env fs t w hw) ih

theorem processTag_eq (env : Env) (fs : FS) (st : List Resolved × List Str) (t : Str) :
    processTag env.join fs (searchDirs env) st t
      = (st.1 ++ (sectionOf env fs t).toList, st.2 ++ (warningOf env fs t).toList) := by
  unfold processTag sectionOf warningOf
  cases hr : resolveTag env.join fs t (searchDirs env) with
  | none => simp
  | some result =>
    cases hl : loadBundle fs result.filePath with
    | ok content => simp [hl]
    | error msg => simp [hl]

theorem section_xor_warning (env : Env) (fs : FS) (t : Str) :
    (sectionOf env fs t).toList.length + (warningOf env fs t).toList.length = 1 := by
  unfold sectionOf warningOf
  cases hr : resolveTag env.join fs t (searchDirs env) with
  | none => simp
  | some result =>
    cases hl : loadBundle fs result.filePath with
    | ok content => simp [hl]
    | error msg => simp [hl]

theorem length_sections_warnings (env : Env) (fs : FS) (tags : List Str) :
    (tags.filterMap (sectionOf env fs)).length + (tags.filterMap (warningOf env fs)).length
      = tags.length := by
  induction tags with
  | nil => rfl
  | cons t ts ih =>
    have h1 := section_xor_warning env fs t
    rw [List.filterMap_cons, List.filterMap_cons]
    cases hs : sectionOf env fs t with
    | none =>
      cases hw : warningOf env fs t with
      | none => simp [hs, hw] at h1
      | some w =>
        simp only [List.length_cons]
        omega
    | some r =>
      cases hw : warningOf env fs t with
      | none =>
        simp only [List.length_cons]
        omega
      | some w => simp [hs, hw] at h1

theorem intercalate_cons_ne_nil (sep a : Str) (l : List Str) (h : l ≠ []) :
    List.intercalate sep (a :: l) = a ++ sep ++ List.intercalate sep l := by
  cases l with
  | nil => exact absurd rfl h
  | cons b t => simp [List.intercalate, List.intersperse]

theorem intercalate_append_ne_nil (sep : Str) (ls ws : List Str) (h : ws ≠ []) :
    List.intercalate sep (ls ++ ws)
      = (ls.map fun x => x ++ sep).flatten ++ List.intercalate sep ws := by
  induction ls with
  | nil => simp
  | cons a t ih =>
    rw [List.cons_append, intercalate_cons_ne_nil sep a (t ++ ws) (by simp [h]), ih]
    simp

theorem section_lines_text (resolved : List Resolved) :
    ((resolved.map fun r => [header r.tag, r.content, []]).flatten.map
        fun x => x ++ ['\n']).flatten
      = (resolved.map fun r => header r.tag ++ ['\n'] ++ r.content ++ ['\n', '\n']).flatten := by
  induction resolved with
  | nil => rfl
  | cons r rs ih =>
    simp only [List.map_cons, List.flatten_cons, List.map_append, List.flatten_append, ih]
    simp

/-- C12: the tags of the sections form a subsequence of `parseTags(prompt)`; the
warnings are, in order, those of a subsequence of `parseTags(prompt)`; and what
is written is the trimmed text of all sections followed by all warnings. -/
theorem sections_then_warnings_in_order (env : Env) (fs : FS) (prompt : Str) :
    ((resolveAll env fs (parseTags prompt)).1.map fun r => r.tag).Sublist (parseTags prompt) ∧
    (∃ failing : List Str, failing.Sublist (parseTags prompt) ∧
      List.Forall₂ (fun t w => w = notFoundWarning t ∨ ∃ msg, w = loadErrorWarning t msg)
        failing (resolveAll env fs (parseTags prompt)).2) ∧
    runPrompt env fs prompt
      = trim (List.intercalate ['\n']
          (((resolveAll env fs (parseTags prompt)).1.map fun r =>
              [header r.tag, r.content, []]).flatten
            ++ (resolveAll env fs (parseTags prompt)).2)) ∧
    ((resolveAll env fs (parseTags prompt)).2 ≠ [] →
      runPrompt env fs prompt
        = trim (((resolveAll env fs (parseTags prompt)).1.map fun r =>
              header r.tag ++ ['\n'] ++ r.content ++ ['\n', '\n']).flatten
            ++ List.intercalate ['\n'] (resolveAll env fs (parseTags prompt)).2)) ∧
    runPrompt sampleEnv sampleFS "+nope +mine +simple +mine".toList
      = ("--- hotcontext: mine ---\n# Mine\n\n--- hotcontext: simple ---\n# Body\n\n" ++
          "[hotcontext] No bundle found for +nope").toList ∧
    (∀ (rt : Runtime) (stdin : Str) (input : Json), rt.parse stdin = .ok input →
      getPrompt rt input = .ok (some (.str prompt)) →
      main rt (hostOf env) fs stdin
        = { stdout := runPrompt env fs prompt, stderr := [], exitCode := 0 }) := by
  have hlines : runPrompt env fs prompt
      = trim (List.intercalate ['\n']
          (((resolveAll env fs (parseTags prompt)).1.map fun r =>
              [header r.tag, r.content, []]).flatten
            ++ (resolveAll env fs (parseTags prompt)).2)) := by
    rw [runPrompt_eq, formatOutput_eq]
    unfold outputLines join
    rw [List.map_map]
    rfl
  refine ⟨?_, ?_, hlines, ?_, by decide,
    fun rt stdin input hp hg => main_hostOf rt env fs stdin input prompt hp hg⟩
  · rw [resolveAll_eq]
    simp only
    rw [map_tag_sections]
    exact List.filter_sublist _
  · refine ⟨(parseTags prompt).filter fun t => (warningOf env fs t).isSome,
      List.filter_sublist _, ?_⟩
    rw [resolveAll_eq]
    exact forall2_warnings env fs _
  · intro hne
    rw [hlines, intercalate_append_ne_nil _ _ _ hne, section_lines_text]

theorem warning_marker (t w : Str)
    (h : w = notFoundWarning t ∨ ∃ msg, w = loadErrorWarning t msg) :
    "[hotcontext] ".toList <+: w := by
  rcases h with h | ⟨msg, h⟩
  · rw [h]
    exact ⟨"No bundle found for +".toList ++ t, by simp [notFoundWarning, String.toList]⟩
  · rw [h]
    exact ⟨"Error loading +".toList ++ t ++ ": ".toList ++ msg,
      by simp [loadErrorWarning, String.toList]⟩

theorem loadError_ne_notFound (t msg : Str) : loadErrorWarning t msg ≠ notFoundWarning t := by
  intro h
  simp [loadErrorWarning, notFoundWarning, String.toList] at h

/-- C13: for a tag found in no scope the loop pushes exactly the warning
`[hotcontext] No bundle found for +t`; for a tag that resolves but whose read
fails with message `m` it pushes exactly `[hotcontext] Error loading +t: m`;
in both cases no section is pushed; every warning of a pass begins with
`[hotcontext] `, and the two warnings of one tag are never equal. -/
theorem warning_texts (env : Env) (fs : FS) (t : Str) :
    ((∀ sd ∈ searchDirs env, fs.existsSync (env.join [sd.dir, t ++ ".md".toList]) ≠ .ok true) →
      (∀ st, processTag env.join fs (searchDirs env) st t
        = (st.1, st.2 ++ ["[hotcontext] No bundle found for +".toList ++ t])) ∧
      ∀ prompt, t ∈ parseTags prompt →
        "[hotcontext] No bundle found for +".toList ++ t
          ∈ (resolveAll env fs (parseTags prompt)).2) ∧
    (∀ r m, resolveTag env.join fs t (searchDirs env) = some r →
      fs.readFileSync r.filePath = .error m →
      (∀ st, processTag env.join fs (searchDirs env) st t
        = (st.1, st.2 ++ ["[hotcontext] Error loading +".toList ++ t ++ ": ".toList ++ m])) ∧
      ∀ prompt, t ∈ parseTags prompt →
        "[hotcontext] Error loading +".toList ++ t ++ ": ".toList ++ m
          ∈ (resolveAll env fs (parseTags prompt)).2) ∧
    (∀ prompt, ∀ w ∈ (resolveAll env fs (parseTags prompt)).2, "[hotcontext] ".toList <+: w) ∧
    (∀ m, "[hotcontext] Error loading +".toList ++ t ++ ": ".toList ++ m
      ≠ "[hotcontext] No bundle found for +".toList ++ t) ∧
    (resolveAll sampleEnv unreadableFS (parseTags "+nope +simple".toList)).2
      = ["[hotcontext] No bundle found for +nope".toList,
         "[hotcontext] Error loading +simple: EACCES: permission denied".toList] := by
  refine ⟨?_, ?_, ?_, ?_, by decide⟩
  · intro hnone
    have hr : resolveTag env.join fs t (searchDirs env) = none :=
      (resolveTag_eq_none_iff env fs t _).2 hnone
    have hw : warningOf env fs t = some (notFoundWarning t) := by
      unfold warningOf
      rw [hr]
    refine ⟨?_, ?_⟩
    · intro st
      unfold processTag
      rw [hr]
      rfl
    · intro prompt ht
      rw [resolveAll_eq]
      exact List.mem_filterMap.2 ⟨t, ht, hw⟩
  · intro r m hr hread
    have hl : loadBundle fs r.filePath = .error m := by
      unfold loadBundle
      rw [hread]
    have hw : warningOf env fs t = some (loadErrorWarning t m) := by
      unfold warningOf
      rw [hr]
      simp only [hl]
    refine ⟨?_, ?_⟩
    · intro st
      unfold processTag
      rw [hr]
      simp only [hl]
      rfl
    · intro prompt ht
      rw [resolveAll_eq]
      exact List.mem_filterMap.2 ⟨t, ht, hw⟩
  · intro prompt w hw
    rw [resolveAll_eq] at hw
    obtain ⟨u, _, hu⟩ := List.mem_filterMap.1 hw
    exact warning_marker u w (warningOf_cases env fs u w hu)
  · intro m
    exact loadError_ne_notFound t m

/-- The path `resolveTag` returns over the two search directories is the PROJECT
or the PERSONAL bundle file of the tag. -/
theorem resolveTag_path (env : Env) (fs : FS) (t : Str) (r : Resolution)
    (h : resolveTag env.join fs t (searchDirs env) = some r) :
    r.filePath = projectPath env t ∨ r.filePath = personalPath env t := by
  obtain ⟨before, sd, after, hsplit, _, _, hr⟩ := (resolveTag_eq_some_iff env fs t _ r).1 h
  have hmem : sd ∈ searchDirs env := by
    rw [hsplit]
    simp
  rw [searchDirs_eq] at hmem
  simp only [List.mem_cons, List.mem_singleton, List.not_mem_nil, or_false] at hmem
  rcases hmem with hsd | hsd
  · left
    rw [hr, hsd]
    rfl
  · right
    rw [hr, hsd]
    rfl

/-- Whether a tag gets a section, and which, depends on the filesystem only through
the tag's two bundle files. -/
theorem sectionOf_congr (env : Env) (fs fs2 : FS) (t : Str)
    (h1 : fs2.existsSync (projectPath env t) = fs.existsSync (projectPath env t))
    (h2 : fs2.existsSync (personalPath env t) = fs.existsSync (personalPath env t))
    (h3 : fs2.readFileSync (projectPath env t) = fs.readFileSync (projectPath env t))
    (h4 : fs2.readFileSync (personalPath env t) = fs.readFileSync (personalPath env t)) :
    sectionOf env fs2 t = sectionOf env fs t := by
  have hres : resolveTag env.join fs2 t (searchDirs env) = resolveTag env.join fs t (searchDirs env) := by
    rw [searchDirs_eq]
    simp only [resolveTag, projectPath, personalPath] at h1 h2 ⊢
    rw [h1, h2]
  unfold sectionOf
  rw [hres]
  cases hr : resolveTag env.join fs t (searchDirs env) with
  | none => rfl
  | some r =>
    have hload : loadBundle fs2 r.filePath = loadBundle fs r.filePath := by
      unfold loadBundle
      rcases resolveTag_path env fs t r hr with hp | hp
      · rw [hp, h3]
      · rw [hp, h4]
    simp only [hload]

/-- The items of the loop in a run where `process.cwd()` and `os.homedir()` return:
one per tag, each depending on its own tag and files only. -/
theorem items_of_resolveAll (env : Env) (fs : FS) (prompt : Str) :
    (resolveAll env fs (parseTags prompt)).1.length
        + (resolveAll env fs (parseTags prompt)).2.length = (parseTags prompt).length ∧
    (∀ st t, (processTag env.join fs (searchDirs env) st t).1.length
        + (processTag env.join fs (searchDirs env) st t).2.length
          = st.1.length + st.2.length + 1) ∧
    (∀ prompt2 t, t ∈ parseTags prompt → t ∈ parseTags prompt2 →
      (resolveAll env fs (parseTags prompt2)).1.filter (fun r => r.tag = t)
        = (resolveAll env fs (parseTags prompt)).1.filter (fun r => r.tag = t)) ∧
    (∀ (fs2 : FS) t, t ∈ parseTags prompt →
      fs2.existsSync (projectPath env t) = fs.existsSync (projectPath env t) →
      fs2.existsSync (personalPath env t) = fs.existsSync (personalPath env t) →
      fs2.readFileSync (projectPath env t) = fs.readFileSync (projectPath env t) →
      fs2.readFileSync (personalPath env t) = fs.readFileSync (personalPath env t) →
      (resolveAll env fs2 (parseTags prompt)).1.filter (fun r => r.tag = t)
        = (resolveAll env fs (parseTags prompt)).1.filter (fun r => r.tag = t)) ∧
    (∀ r ∈ (resolveAll env fs (parseTags prompt)).1, r.tag ∈ parseTags prompt) := by
  have hnd : ∀ q, (parseTags q).Nodup := by
    intro q
    rw [parseTags_eq]
    exact nodup_firstOccurrences _
  refine ⟨?_, ?_, ?_, ?_, ?_⟩
  · rw [resolveAll_eq]
    exact length_sections_warnings env fs _
  · intro st t
    rw [processTag_eq]
    have := section_xor_warning env fs t
    simp only [List.length_append]
    omega
  · intro prompt2 t ht ht2
    rw [resolveAll_eq, resolveAll_eq]
    simp only
    rw [filter_sections env fs _ (hnd prompt2) t ht2, filter_sections env fs _ (hnd prompt) t ht]
  · intro fs2 t ht h1 h2 h3 h4
    rw [resolveAll_eq, resolveAll_eq]
    simp only
    rw [filter_sections env fs2 _ (hnd prompt) t ht, filter_sections env fs _ (hnd prompt) t ht,
      sectionOf_congr env fs fs2 t h1 h2 h3 h4]
  · intro r hr
    rw [resolveAll_eq] at hr
    obtain ⟨u, hu, hsu⟩ := List.mem_filterMap.1 hr
    rw [sectionOf_tag env fs u r hsu]
    exact hu

/-- C14, as stated, at a host started in a removed directory: `process.cwd()`
throws inside `getSearchDirs()`, the loop is never entered, and for the two
tags of the prompt no section and no warning is recorded or written. -/
theorem one_item_per_tag_counterexample :
    (parseTags "+simple +nope".toList).length = 2 ∧
    runPass removedCwdHost sampleFS (parseTags "+simple +nope".toList)
      = .error "ENOENT: no such file or directory, uv_cwd".toList ∧
    (¬ ∃ rw, runPass removedCwdHost sampleFS (parseTags "+simple +nope".toList) = .ok rw ∧
      rw.1.length + rw.2.length = (parseTags "+simple +nope".toList).length) ∧
    main sampleRuntime removedCwdHost sampleFS
        "\x7b\"prompt\": \"+simple +nope\"\x7d".toList
      = { stdout := [],
          stderr := ("[hotcontext] Resolver error: " ++
            "ENOENT: no such file or directory, uv_cwd\n").toList,
          exitCode := 0 } := by
  have hrun : runPass removedCwdHost sampleFS (parseTags "+simple +nope".toList)
      = .error "ENOENT: no such file or directory, uv_cwd".toList := rfl
  refine ⟨by decide, hrun, ?_, by decide⟩
  rintro ⟨rw, h, _⟩
  rw [hrun] at h
  cases h

/-- C14, amended: in every run where `process.cwd()` and `os.homedir()` return, the
pass records arrays whose numbers of sections and of warnings add up to the
number of tags, each turn of the loop adding exactly one item; the sections
of a tag are the same in every prompt that holds the tag and under every
filesystem that agrees on the tag's own two bundle files; every section
belongs to a tag of the prompt, so tag syntax inside a bundle adds nothing.
When `getSearchDirs()` throws, the pass records nothing and throws. -/
theorem one_item_per_tag_when_dirs_returned (host : Host) (fs : FS) (prompt : Str) :
    (∀ c h, host.cwd = .ok c → host.homedir = .ok h →
      ∃ env : Env, env = { cwd := c, homedir := h, join := host.join } ∧
        (∀ (fs2 : FS) (prompt2 : Str), runPass host fs2 (parseTags prompt2)
          = .ok (resolveAll env fs2 (parseTags prompt2))) ∧
        (resolveAll env fs (parseTags prompt)).1.length
            + (resolveAll env fs (parseTags prompt)).2.length = (parseTags prompt).length ∧
        (∀ st t, (processTag env.join fs (searchDirs env) st t).1.length
            + (processTag env.join fs (searchDirs env) st t).2.length
              = st.1.length + st.2.length + 1) ∧
        (∀ prompt2 t, t ∈ parseTags prompt → t ∈ parseTags prompt2 →
          (resolveAll env fs (parseTags prompt2)).1.filter (fun r => r.tag = t)
            = (resolveAll env fs (parseTags prompt)).1.filter (fun r => r.tag = t)) ∧
        (∀ (fs2 : FS) t, t ∈ parseTags prompt →
          fs2.existsSync (projectPath env t) = fs.existsSync (projectPath env t) →
          fs2.existsSync (personalPath env t) = fs.existsSync (personalPath env t) →
          fs2.readFileSync (projectPath env t) = fs.readFileSync (projectPath env t) →
          fs2.readFileSync (personalPath env t) = fs.readFileSync (personalPath env t) →
          (resolveAll env fs2 (parseTags prompt)).1.filter (fun r => r.tag = t)
            = (resolveAll env fs (parseTags prompt)).1.filter (fun r => r.tag = t)) ∧
        (∀ r ∈ (resolveAll env fs (parseTags prompt)).1, r.tag ∈ parseTags prompt)) ∧
    (∀ msg, getSearchDirs host = .error msg →
      runPass host fs (parseTags prompt) = .error msg) ∧
    runPass (hostOf sampleEnv) nestedFS (parseTags "+simple".toList)
      = .ok ([{ tag := "simple".toList, content := "use +mine and +nope here".toList,
                scope := "PROJECT".toList }], []) ∧
    runPass (hostOf sampleEnv) sampleFS (parseTags "+simple +nope".toList)
      = .ok ([{ tag := "simple".toList, content := "# Body".toList,
                scope := "PROJECT".toList }],
             ["[hotcontext] No bundle found for +nope".toList]) := by
  refine ⟨?_, ?_, rfl, rfl⟩
  · intro c h hc hh
    obtain ⟨h1, h2, h3, h4, h5⟩ :=
      items_of_resolveAll { cwd := c, homedir := h, join := host.join } fs prompt
    exact ⟨_, rfl, fun fs2 prompt2 => runPass_ok host fs2 _ c h hc hh, h1, h2, h3, h4, h5⟩
  · intro msg he
    exact runPass_error host fs _ msg he

/-- C14, amended, at the sample host and filesystem: two tags, one section and one
warning. -/
theorem one_item_per_tag_when_dirs_returned_witness :
    runPass (hostOf sampleEnv) sampleFS (parseTags "+simple +nope".toList)
      = .ok (resolveAll sampleEnv sampleFS (parseTags "+simple +nope".toList)) ∧
    (resolveAll sampleEnv sampleFS (parseTags "+simple +nope".toList)).1.length
      + (resolveAll sampleEnv sampleFS (parseTags "+simple +nope".toList)).2.length = 2 := by
  obtain ⟨env, henv, h1, h2, _⟩ :=
    (one_item_per_tag_when_dirs_returned (hostOf sampleEnv) sampleFS
      "+simple +nope".toList).1 "/work".toList "/home/u".toList rfl rfl
  subst henv
  exact ⟨h1 sampleFS _, h2⟩

/-! ## The header survives the final trim -/

theorem rdropWhile_keeps (p : Char → Bool) (a b : Str) (ha : a ≠ [])
    (hl : p (a.getLast ha) = false) : a <+: (a ++ b).rdropWhile p := by
  induction b using List.reverseRecOn with
  | nil =>
    rw [List.append_nil]
    have : a.rdropWhile p = a := by
      rw [List.rdropWhile_eq_self_iff]
      intro h
      simp [hl]
    rw [this]
  | append_singleton xs x ih =>
    rw [← List.append_assoc]
    by_cases hx : p x = true
    · rw [List.rdropWhile_concat_pos _ _ _ hx]
      exact ih
    · rw [List.rdropWhile_concat_neg _ _ _ hx, List.append_assoc]
      exact List.prefix_append _ _

/-- A text that starts and ends with characters that are not whitespace is kept
whole by the trim of any text that begins with it. -/
theorem trim_keeps (a b : Str) (c : Char) (t : Str) (hc : a = c :: t)
    (hhead : isWhiteSpace c = false) (ha : a ≠ [])
    (hl : isWhiteSpace (a.getLast ha) = false) : a <+: trim (a ++ b) := by
  unfold trim
  have : (a ++ b).dropWhile isWhiteSpace = a ++ b := by
    rw [hc, List.cons_append, List.dropWhile_cons_of_neg (by simp [hhead])]
  rw [this]
  exact rdropWhile_keeps isWhiteSpace a b ha hl

theorem header_ne_nil (tag : Str) : header tag ≠ [] := by
  simp [header, String.toList]

theorem header_head (tag : Str) :
    header tag = '-' :: ("-- hotcontext: ".toList ++ tag ++ " ---".toList) := by
  simp [header, String.toList]

theorem header_getLast (tag : Str) : (header tag).getLast (header_ne_nil tag) = '-' := by
  have h : header tag = ("--- hotcontext: ".toList ++ tag ++ " --".toList) ++ ['-'] := by
    simp [header, String.toList]
  simp only [h, List.getLast_append_singleton]

theorem intercalate_cons_split (sep a : Str) (l : List Str) :
    ∃ rest, List.intercalate sep (a :: l) = a ++ rest := by
  cases l with
  | nil => exact ⟨[], by simp [List.intercalate, List.intersperse]⟩
  | cons b t =>
    exact ⟨sep ++ List.intercalate sep (b :: t),
      by rw [intercalate_cons_ne_nil sep a (b :: t) (List.cons_ne_nil _ _), List.append_assoc]⟩

theorem header_prefix_formatOutput (r : Resolved) (rs : List Resolved) (warnings : List Str) :
    header r.tag <+: formatOutput (r :: rs) warnings := by
  rw [formatOutput_eq]
  unfold outputLines join
  simp only [List.map_cons, List.flatten_cons, List.cons_append, List.nil_append]
  obtain ⟨rest, hrest⟩ := intercalate_cons_split ['\n'] (header r.tag)
    (r.content :: [] :: ((List.map (fun p => [header p.1, p.2, []])
      (List.map (fun r => (r.tag, r.content)) rs)).flatten ++ warnings))
  rw [hrest]
  exact trim_keeps (header r.tag) rest '-' _ (header_head r.tag) (by decide)
    (header_ne_nil r.tag) (by rw [header_getLast]; decide)

/-- C16: for a non-empty list of resolved pairs, whatever the contents and the
warnings, the result of `formatOutput` begins with the whole header line
`--- hotcontext: <tag> ---` of the first pair. -/
theorem formatOutput_starts_with_header (r : Resolved) (rs : List Resolved)
    (warnings : List Str) :
    ("--- hotcontext: ".toList ++ r.tag ++ " ---".toList) <+: formatOutput (r :: rs) warnings ∧
    formatOutput [{ tag := "a".toList, content := " \n ".toList, scope := [] }] []
      = "--- hotcontext: a ---".toList := by
  exact ⟨header_prefix_formatOutput r rs warnings, by decide⟩

/-! ## Front matter: line endings, the empty block, and what is kept -/

/-- C17: for a block `fm` without `\n---` and line breaks `e1`, `e2`, `e3` that are
each `\n` or `\r\n`, stripping `"---" + e1 + fm + e2 + "---" + e3 + body` gives
`body`, and stripping `"---" + e1 + fm + e2 + "---"` gives the empty string. -/
theorem stripFrontmatter_line_endings (e1 e2 e3 fm body : Str)
    (h1 : e1 = "\n".toList ∨ e1 = "\r\n".toList)
    (h2 : e2 = "\n".toList ∨ e2 = "\r\n".toList)
    (h3 : e3 = "\n".toList ∨ e3 = "\r\n".toList)
    (hfm : ¬ "\n---".toList <:+: fm) :
    stripFrontmatter ("---".toList ++ e1 ++ fm ++ e2 ++ "---".toList ++ e3 ++ body) = body ∧
    stripFrontmatter ("---".toList ++ e1 ++ fm ++ e2 ++ "---".toList) = [] := by
  constructor
  · have h := stripFrontmatter_block e1 e2 fm (e3 ++ body) h1 h2 hfm
    have hshape : "---".toList ++ e1 ++ fm ++ e2 ++ "---".toList ++ e3 ++ body
        = '-' :: '-' :: '-' :: (e1 ++ (fm ++ (e2 ++ '-' :: '-' :: '-' :: (e3 ++ body)))) := by
      simp [String.toList]
    rw [hshape, h]
    rcases h3 with h3 | h3
    · rw [h3]
      simp [skipOpt, String.toList]
    · rw [h3]
      simp [skipOpt, String.toList]
  · have h := stripFrontmatter_block e1 e2 fm [] h1 h2 hfm
    have hshape : "---".toList ++ e1 ++ fm ++ e2 ++ "---".toList
        = '-' :: '-' :: '-' :: (e1 ++ (fm ++ (e2 ++ '-' :: '-' :: '-' :: []))) := by
      simp [String.toList]
    rw [hshape, h]
    rfl

/-- C17 at a file with Windows line endings. -/
theorem stripFrontmatter_line_endings_witness :
    stripFrontmatter ("---".toList ++ "\r\n".toList ++ "name: simple".toList ++ "\r\n".toList
        ++ "---".toList ++ "\r\n".toList ++ "# Body\r\n".toList) = "# Body\r\n".toList ∧
    stripFrontmatter ("---".toList ++ "\r\n".toList ++ "name: simple".toList ++ "\r\n".toList
        ++ "---".toList) = [] :=
  stripFrontmatter_line_endings "\r\n".toList "\r\n".toList "\r\n".toList
    "name: simple".toList "# Body\r\n".toList (Or.inr rfl) (Or.inr rfl) (Or.inr rfl)
    (by decide)

/-- C18 (the code at an empty block): with the closing delimiter right after the
opening one nothing is stripped, and when the body holds a later `---` line
the body up to that line is stripped as if it were front matter. -/
theorem stripFrontmatter_empty_block :
    stripFrontmatter "---\n---\n# Body\n".toList = "---\n---\n# Body\n".toList ∧
    stripFrontmatter "---\n---\n".toList = "---\n---\n".toList ∧
    stripFrontmatter "---\n---\n# Title\n---\nmore\n".toList = "more\n".toList := by
  refine ⟨by decide, by decide, by decide⟩

theorem anyStarL_eq_some {α : Type} (k : Str → Cont α) (acc s : Str) (x : α)
    (h : anyStarL k acc s = some x) : ∃ a b, s = a ++ b ∧ k (acc ++ a) b = some x := by
  induction s generalizing acc with
  | nil =>
    rw [anyStarL] at h
    exact ⟨[], [], rfl, by simpa using h⟩
  | cons c t ih =>
    rw [anyStarL] at h
    cases hk : k acc (c :: t) with
    | some y =>
      rw [hk] at h
      exact ⟨[], c :: t, rfl, by simpa [hk] using h⟩
    | none =>
      rw [hk] at h
      obtain ⟨a, b, hab, hkab⟩ := ih (acc ++ [c]) h
      exact ⟨c :: a, b, by rw [hab]; rfl, by simpa using hkab⟩

theorem skipOpt_suffix (c : Char) (s : Str) : ∃ q, s = q ++ skipOpt c s := by
  cases s with
  | nil => exact ⟨[], rfl⟩
  | cons d t =>
    by_cases hd : d = c
    · exact ⟨[d], by simp [skipOpt, hd]⟩
    · exact ⟨[], by simp [skipOpt, hd]⟩

/-- When the pattern matches, its second group is the content less a non-empty
beginning. -/
theorem frontmatterRe_split (s : Str) (x : Str × Str) (h : frontmatterRe s = some x) :
    ∃ p, p ≠ [] ∧ s = p ++ x.2 := by
  unfold frontmatterRe at h
  obtain ⟨t1, h1, h⟩ := (lit_eq_some _ _ _ _).1 h
  obtain ⟨t2, h2, h⟩ := (lit_eq_some _ _ _ _).1 h
  obtain ⟨t3, h3, h⟩ := (lit_eq_some _ _ _ _).1 h
  have key : ∀ t5 : Str, anyStarL frontmatterClose [] t5 = some x →
      ∃ q, t5 = q ++ x.2 := by
    intro t5 h5
    obtain ⟨a, b, hab, hk⟩ := anyStarL_eq_some _ _ _ _ h5
    obtain ⟨rest, hb, hx⟩ := frontmatterClose_eq_some _ _ _ hk
    obtain ⟨q1, hq1⟩ := skipOpt_suffix '\r' rest
    obtain ⟨q2, hq2⟩ := skipOpt_suffix '\n' (skipOpt '\r' rest)
    have hx2 : x.2 = skipOpt '\n' (skipOpt '\r' rest) := by rw [hx]
    rcases hb with hb | hb
    · refine ⟨a ++ '\r' :: '\n' :: '-' :: '-' :: '-' :: (q1 ++ q2), ?_⟩
      rw [hab, hb, hx2]
      conv_lhs => rw [hq1, hq2]
      simp
    · refine ⟨a ++ '\n' :: '-' :: '-' :: '-' :: (q1 ++ q2), ?_⟩
      rw [hab, hb, hx2]
      conv_lhs => rw [hq1, hq2]
      simp
  rcases optG_eq_some _ _ _ _ h with ⟨t4, h4, h5⟩ | h5
  · obtain ⟨t5, h6, h7⟩ := (lit_eq_some _ _ _ _).1 h5
    obtain ⟨q, hq⟩ := key t5 h7
    exact ⟨'-' :: '-' :: '-' :: '\r' :: '\n' :: q, List.cons_ne_nil _ _,
      by rw [h1, h2, h3, h4, h6, hq]; rfl⟩
  · obtain ⟨t5, h6, h7⟩ := (lit_eq_some _ _ _ _).1 h5
    obtain ⟨q, hq⟩ := key t5 h7
    exact ⟨'-' :: '-' :: '-' :: '\n' :: q, List.cons_ne_nil _ _,
      by rw [h1, h2, h3, h6, hq]; rfl⟩

/-- C20: `stripFrontmatter(content)` is a suffix of `content`; the part removed is
empty exactly when the pattern does not match, which is exactly when the
result is the content itself; and what `loadBundle` returns is a contiguous
part of the raw file. -/
theorem stripFrontmatter_suffix (content : Str) :
    ∃ p, content = p ++ stripFrontmatter content ∧
      (p = [] ↔ frontmatterRe content = none) ∧
      (p = [] ↔ stripFrontmatter content = content) ∧
      ∀ (fs : FS) (filePath : Str), fs.readFileSync filePath = .ok content →
        ∃ x, loadBundle fs filePath = .ok x ∧ x <:+: content := by
  cases hm : frontmatterRe content with
  | none =>
    have hs : stripFrontmatter content = content := by
      unfold stripFrontmatter
      rw [hm]
    refine ⟨[], by rw [hs]; rfl, by simp, by simp [hs], ?_⟩
    intro fs filePath hread
    refine ⟨trim content, by unfold loadBundle; simp only [hread, hs], ?_⟩
    obtain ⟨l, r, hlr, _⟩ := trim_spec content
    exact ⟨l, r, hlr.symm⟩
  | some x =>
    have hs : stripFrontmatter content = x.2 := by
      unfold stripFrontmatter
      rw [hm]
    obtain ⟨p, hp, hsplit⟩ := frontmatterRe_split content x hm
    refine ⟨p, by rw [hs]; exact hsplit, by simp [hp], ?_, ?_⟩
    · constructor
      · intro h
        exact absurd h hp
      · intro h
        rw [hs] at h
        have hlen := congrArg List.length hsplit
        rw [List.length_append, h] at hlen
        exact List.length_eq_zero.1 (by omega)
    · intro fs filePath hread
      refine ⟨trim x.2, by unfold loadBundle; simp only [hread, hs], ?_⟩
      obtain ⟨l, r, hlr, _⟩ := trim_spec x.2
      refine ⟨p ++ l, r, ?_⟩
      rw [hsplit]
      conv_rhs => rw [hlr]
      simp

/-! ## Something is written whenever the prompt holds a tag -/

theorem trim_ne_nil (c : Char) (t : Str) (hc : isWhiteSpace c = false) : trim (c :: t) ≠ [] := by
  have h := trim_keeps [c] t c [] rfl hc (List.cons_ne_nil _ _) (by simpa using hc)
  intro hnil
  rw [List.singleton_append, hnil] at h
  simp at h

theorem formatOutput_ne_nil (resolved : List Resolved) (warnings : List Str)
    (h : resolved ≠ [] ∨ warnings ≠ [])
    (hw : ∀ w ∈ warnings, "[hotcontext] ".toList <+: w) :
    formatOutput resolved warnings ≠ [] := by
  cases resolved with
  | cons r rs =>
    intro hnil
    have hp := header_prefix_formatOutput r rs warnings
    rw [hnil] at hp
    exact header_ne_nil r.tag (List.prefix_nil.1 hp)
  | nil =>
    cases warnings with
    | nil => simp at h
    | cons w ws =>
      obtain ⟨u, hu⟩ := hw w (List.mem_cons_self _ _)
      rw [formatOutput_eq]
      unfold outputLines join
      simp only [List.map_nil, List.flatten_nil, List.nil_append]
      obtain ⟨rest, hrest⟩ := intercalate_cons_split ['\n'] w ws
      rw [hrest, ← hu]
      have hshape : "[hotcontext] ".toList ++ u ++ rest
          = '[' :: ("hotcontext] ".toList ++ u ++ rest) := by
        simp [String.toList]
      rw [hshape]
      exact trim_ne_nil '[' _ (by decide)

/-- In a run where `process.cwd()` and `os.homedir()` return, the text for standard
output is empty exactly when the prompt has no tag. -/
theorem runPrompt_eq_nil_iff (env : Env) (fs : FS) (prompt : Str) :
    runPrompt env fs prompt = [] ↔ parseTags prompt = [] := by
  constructor
  · intro hrun
    by_contra hne
    rw [runPrompt_eq] at hrun
    refine formatOutput_ne_nil _ _ ?_ ?_ hrun
    · have hlen : (resolveAll env fs (parseTags prompt)).1.length
          + (resolveAll env fs (parseTags prompt)).2.length = (parseTags prompt).length := by
        rw [resolveAll_eq]
        exact length_sections_warnings env fs _
      have hpos : 0 < (parseTags prompt).length := List.length_pos.2 hne
      by_cases h1 : (resolveAll env fs (parseTags prompt)).1 = []
      · right
        intro h2
        rw [h1, h2] at hlen
        simp at hlen
        omega
      · exact Or.inl h1
    · intro w hwmem
      rw [resolveAll_eq] at hwmem
      obtain ⟨u, _, hu⟩ := List.mem_filterMap.1 hwmem
      exact warning_marker u w (warningOf_cases env fs u w hu)
  · exact runPrompt_of_no_tags env fs prompt

/-- C19, as stated, at a host started in a removed directory: the prompt holds two
tags, `process.cwd()` throws inside `getSearchDirs()`, and nothing is written
to standard output. -/
theorem output_empty_iff_no_tags_counterexample :
    ¬ ((main sampleRuntime removedCwdHost sampleFS
          "\x7b\"prompt\": \"+simple +nope\"\x7d".toList).stdout = [] ↔
        parseTags "+simple +nope".toList = []) := by
  decide

/-- C19, amended: a prompt without tags gives the empty output on every host; in
every run where `process.cwd()` and `os.homedir()` return, the output is
empty exactly when `parseTags(prompt)` is empty, also when a bundle is empty
or a read fails; when `getSearchDirs()` throws for a prompt with tags, nothing
is written to standard output and the diagnostic goes to standard error. -/
theorem output_empty_iff_no_tags_when_dirs_returned (rt : Runtime) (host : Host) (fs : FS)
    (prompt : Str) :
    (∀ env : Env, runPrompt env fs prompt = [] ↔ parseTags prompt = []) ∧
    (∀ (stdin : Str) (input : Json), rt.parse stdin = .ok input →
      getPrompt rt input = .ok (some (.str prompt)) →
      (parseTags prompt = [] →
        main rt host fs stdin = { stdout := [], stderr := [], exitCode := 0 }) ∧
      (∀ c h, host.cwd = .ok c → host.homedir = .ok h →
        ((main rt host fs stdin).stdout = [] ↔ parseTags prompt = [])) ∧
      (∀ msg, getSearchDirs host = .error msg → parseTags prompt ≠ [] →
        main rt host fs stdin
          = { stdout := [], stderr := "[hotcontext] Resolver error: ".toList ++ msg ++ ['\n'],
              exitCode := 0 })) ∧
    (main sampleRuntime (hostOf sampleEnv) sampleFS
        "\x7b\"prompt\": \"+simple +nope\"\x7d".toList).stdout
      = ("--- hotcontext: simple ---\n# Body\n\n" ++
          "[hotcontext] No bundle found for +nope").toList ∧
    runPrompt sampleEnv emptyBodyFS "+simple".toList = "--- hotcontext: simple ---".toList ∧
    runPrompt sampleEnv unreadableFS "+simple".toList
      = "[hotcontext] Error loading +simple: EACCES: permission denied".toList := by
  refine ⟨fun env => runPrompt_eq_nil_iff env fs prompt, ?_, by decide, by decide, by decide⟩
  intro stdin input hp hg
  refine ⟨?_, ?_, ?_⟩
  · intro ht
    exact main_no_tags rt host fs stdin input prompt hp hg ht
  · intro c h hc hh
    rw [main_run_ok rt host fs stdin input prompt c h hp hg hc hh]
    exact runPrompt_eq_nil_iff _ fs prompt
  · intro msg he ht
    exact main_dirs_error rt host fs stdin input prompt msg hp hg ht he

/-- C19, amended, at the sample host, where both calls return: the prompt holds
tags and the output is not empty. -/
theorem output_empty_iff_no_tags_when_dirs_returned_witness :
    ((main sampleRuntime (hostOf sampleEnv) sampleFS
          "\x7b\"prompt\": \"+simple +nope\"\x7d".toList).stdout = [] ↔
        parseTags "+simple +nope".toList = []) ∧
    parseTags "+simple +nope".toList ≠ [] :=
  ⟨((output_empty_iff_no_tags_when_dirs_returned sampleRuntime (hostOf sampleEnv) sampleFS
      "+simple +nope".toList).2.1 "\x7b\"prompt\": \"+simple +nope\"\x7d".toList
      (.obj [("prompt".toList, .str "+simple +nope".toList)]) rfl rfl).2.1
      "/work".toList "/home/u".toList rfl rfl,
    by decide⟩

end HotContext
